import Mathlib

/-!
Shallow embedding of the GPT-2 forward computation implemented in
`src/model/model.py` (classes `LayerNorm`, `Conv1D`, `Attention`, `MLP`,
`Block`, `GPT2Model`, `GPT2LMHead`, `GPT2LMHeadModel`).

Modelling conventions:
* Machine floating-point numbers are modelled by exact real numbers `ℝ`.
* A per-position feature vector (slice of a tensor along its last axis) is a
  total function `ℕ → ℝ`; coordinates at or beyond the relevant width are
  never read by any operation (every reduction sums over an explicit
  `Finset.range width`).
* A tensor of shape (sequence, features) is a `List` of such vectors.  The
  batch axis is omitted: every operation of the source acts pointwise per
  batch element (and the claims under study quantify per batch element), so
  one list models one batch row.
* The per-layer key/value cache (`layer_past` / `present`) stores one key
  vector and one value vector per already-visible position.  The source
  stores them head-split as `(batch, head, seq, head_features)` (the key
  transposed for stacking); head `h`, feature `f` of position `p` is the
  coordinate `h * head_features + f` of our per-position vector, which is
  exactly the layout produced by the `view` in `Attention.forward`.
* Fallible construction (the `assert` in `Attention.__init__`) is modelled
  with `Except`.
-/

set_option maxHeartbeats 1000000

/-- A feature vector: one position's slice along the last tensor axis. -/
abbrev V : Type := ℕ → ℝ

/-- The all-zero feature vector (used as an out-of-range default; no
in-range computation ever reads it). -/
def zeroV : V := fun _ => 0

/-- Pointwise addition of feature vectors (tensor `+` at one position). -/
def vadd (a b : V) : V := fun i => a i + b i

/-- Hyperparameter record of the model (`GPT2Config`). -/
structure Config where
  vocab_size : ℕ
  n_positions : ℕ
  n_ctx : ℕ
  n_embd : ℕ
  n_head : ℕ
  n_layer : ℕ
  layer_norm_epsilon : ℝ

/-! ## LayerNorm -/

/-- Parameters of `LayerNorm`: learned scale `weight`, shift `bias`, and the
`variance_epsilon` constant. -/
structure LNorm where
  weight : V
  bias : V
  eps : ℝ

/-- Last-axis mean over `n` features: `x.mean(dim=-1)`. -/
noncomputable def lnMean (n : ℕ) (x : V) : ℝ := (∑ i in Finset.range n, x i) / n

/-- Last-axis biased variance over `n` features:
`x.var(dim=-1, unbiased=False)`, i.e. the mean squared deviation (divisor
`n`, not `n - 1`). -/
noncomputable def lnVar (n : ℕ) (x : V) : ℝ :=
  (∑ i in Finset.range n, (x i - lnMean n x) ^ 2) / n

/-- `LayerNorm.forward`: `weight * (x - u) / sqrt(s + eps) + bias` with `u`
the last-axis mean and `s` the biased last-axis variance. -/
noncomputable def lnForward (n : ℕ) (p : LNorm) (x : V) : V :=
  fun j => p.weight j * ((x j - lnMean n x) / Real.sqrt (lnVar n x + p.eps)) + p.bias j

/-- `LayerNorm.__init__`: weight initialised to ones, bias to zeros, with an
explicitly supplied epsilon. -/
def mkLNorm (hidden_size : ℕ) (eps : ℝ) : LNorm :=
  { weight := fun _ => 1, bias := fun _ => 0, eps := eps }

/-- `LayerNorm.__init__` with the default argument `eps=1e-12`. -/
def mkLNormDefault (hidden_size : ℕ) : LNorm := mkLNorm hidden_size 1e-12

/-! ## Conv1D (fused affine projection) -/

/-- Parameters of `Conv1D`: weight of shape `(nx, nf)` and bias of shape
`(nf)`. -/
structure Conv1D where
  weight : ℕ → ℕ → ℝ
  bias : V

/-- `Conv1D.forward` at one position: `addmm(bias, x, weight)`, i.e.
`out j = bias j + ∑ i < nx, x i * weight i j`.  The source flattens the
leading axes, multiplies, and restores them; per position this is exactly
the affine map below. -/
noncomputable def conv1dF (nx : ℕ) (p : Conv1D) (x : V) : V :=
  fun j => p.bias j + ∑ i in Finset.range nx, x i * p.weight i j

/-! ## GELU activation (`nn.GELU`, exact erf form) -/

/-- Gauss error function `erf x = 2/√π ∫_0^x exp(-t²) dt`, the kernel of
`nn.GELU`. -/
noncomputable def erf (x : ℝ) : ℝ :=
  (2 / Real.sqrt Real.pi) * ∫ t in (0:ℝ)..x, Real.exp (-(t ^ 2))

/-- `nn.GELU` (default, exact): `0.5 * x * (1 + erf (x / √2))`. -/
noncomputable def gelu (x : ℝ) : ℝ := 0.5 * x * (1 + erf (x / Real.sqrt 2))

/-! ## MLP -/

/-- Parameters of `MLP`: the two fused projections `c_fc : Conv1D(4*nx, nx)`
and `c_proj : Conv1D(nx, 4*nx)`. -/
structure MLP where
  c_fc : Conv1D
  c_proj : Conv1D

/-- `MLP.forward` at one position: `c_proj(gelu(c_fc(x)))`. -/
noncomputable def mlpForward (cfg : Config) (p : MLP) (x : V) : V :=
  conv1dF (4 * cfg.n_embd) p.c_proj (fun j => gelu (conv1dF cfg.n_embd p.c_fc x j))

/-! ## Attention -/

/-- Parameters and derived sizes of `Attention` (after construction). -/
structure AttnParams where
  c_attn : Conv1D
  c_proj : Conv1D
  n_head : ℕ
  head_features : ℕ
  n_state : ℕ
  n_ctx : ℕ
  scale : Bool

/-- One layer's key/value cache: a key vector and a value vector per
visible position (`layer_past` on input, `present` on output). -/
structure Cache where
  keys : List V
  values : List V

/-- The empty cache (no visible positions yet). -/
def emptyCache : Cache := ⟨[], []⟩

/-- Restriction of a cache to its first `t` positions. -/
def cacheTake (t : ℕ) (c : Cache) : Cache := ⟨c.keys.take t, c.values.take t⟩

/-- Head `h` of a merged-width vector: the `view` into
`(n_head, head_features)` reads coordinate `h * head_features + f`. -/
def headSlice (hf h : ℕ) (u : V) : V := fun f => u (hf * h + f)

/-- Dot product over the first `n` coordinates. -/
noncomputable def dotR (n : ℕ) (a b : V) : ℝ := ∑ i in Finset.range n, a i * b i

/-- Entry `(r, c)` of the registered buffer
`tril(ones(n_ctx, n_ctx)).view(1, 1, n_ctx, n_ctx)`: `1` on the lower
triangle of the `n_ctx × n_ctx` buffer, `0` elsewhere.  Reads outside the
buffer (row or column `≥ n_ctx`) do not exist in the source; the guard
records the buffer's extent (see the in-range predicate `maskIndexOk`). -/
def triBias (n_ctx r c : ℕ) : ℝ := if r < n_ctx ∧ c < n_ctx ∧ c ≤ r then 1 else 0

/-- The buffer index selected by the slice `self.bias[:, :, ns-nd:ns, :ns]`
at query row `d` and key column `c` lies inside the `n_ctx × n_ctx`
buffer. -/
def maskIndexOk (n_ctx ns nd d c : ℕ) : Prop := ns - nd + d < n_ctx ∧ c < n_ctx

/-- Raw attention score in `_attn` for head `h`: `q @ k` at key column `c`,
a dot product over the head features.  `keys` holds one (merged-width) key
vector per visible position. -/
noncomputable def rawScore (p : AttnParams) (keys : List V) (q : V) (h c : ℕ) : ℝ :=
  dotR p.head_features (headSlice p.head_features h q)
    (headSlice p.head_features h (keys.getD c zeroV))

/-- Score after the optional scaling `w / sqrt(v.size(-1))` (the head
feature count). -/
noncomputable def scaledScore (p : AttnParams) (keys : List V) (q : V) (h c : ℕ) : ℝ :=
  if p.scale then rawScore p keys q h c / Real.sqrt (p.head_features : ℝ)
  else rawScore p keys q h c

/-- Masked score of `_attn`: `w * b - 1e10 * (1 - b)` where
`b = bias[:, :, ns-nd:ns, :ns]` at query row `d`, key column `c`.  Unmasked
entries keep their score; masked-out entries become exactly `-1e10`. -/
noncomputable def biasedScore (p : AttnParams) (keys : List V) (ns nd : ℕ) (q : V)
    (h d c : ℕ) : ℝ :=
  scaledScore p keys q h c * triBias p.n_ctx (ns - nd + d) c
    - 1e10 * (1 - triBias p.n_ctx (ns - nd + d) c)

/-- Post-softmax attention weight of `_attn` (`torch.softmax(w, dim=-1)`)
from query row `d` to key column `c` for head `h`.  (Softmax's internal
max-subtraction is a numerical-stability measure that does not change the
real-valued result.) -/
noncomputable def attnWeight (p : AttnParams) (keys : List V) (ns nd : ℕ) (q : V)
    (h d c : ℕ) : ℝ :=
  Real.exp (biasedScore p keys ns nd q h d c) /
    ∑ x in Finset.range ns, Real.exp (biasedScore p keys ns nd q h d x)

/-- Row `d` of `_attn` followed by the head merge
(`a.transpose(1, 2).view(..., n_state)`): output coordinate
`i = head_features * h + f` is the attention-weighted sum of value vectors
for head `h = i / head_features`, feature `f = i % head_features`. -/
noncomputable def sourceRow (p : AttnParams) (keys values : List V) (ns nd : ℕ)
    (q : V) (d : ℕ) : V :=
  fun i => ∑ c in Finset.range ns,
    attnWeight p keys ns nd q (i / p.head_features) d c *
      headSlice p.head_features (i / p.head_features) (values.getD c zeroV)
        (i % p.head_features)

/-- Shape of the per-row attention computation: parameters, keys, values,
`ns`, `nd`, the query-side projection of the row, and the row index. -/
abbrev RowFn : Type := AttnParams → List V → List V → ℕ → ℕ → V → ℕ → V

/-- Key part of the fused `c_attn` output (`x.split(n_state, dim=2)`,
second third). -/
def keyPart (p : AttnParams) (u : V) : V := fun i => u (p.n_state + i)

/-- Value part of the fused `c_attn` output (third third). -/
def valPart (p : AttnParams) (u : V) : V := fun i => u (2 * p.n_state + i)

/-- Keys of an optional incoming cache (`layer_past[0]`, transposed back). -/
def pastKeys : Option Cache → List V
  | none => []
  | some pc => pc.keys

/-- Values of an optional incoming cache (`layer_past[1]`). -/
def pastValues : Option Cache → List V
  | none => []
  | some pc => pc.values

/-- The fused `c_attn` projection applied to every position
(`x = self.c_attn(x)`). -/
noncomputable def qkvList (p : AttnParams) (xs : List V) : List V :=
  xs.map (conv1dF p.n_state p.c_attn)

/-- The per-position key vectors of the new tokens (key third of the fused
projection, head-split by `headSlice` at use). -/
noncomputable def newKeys (p : AttnParams) (xs : List V) : List V :=
  (qkvList p xs).map (keyPart p)

/-- The per-position value vectors of the new tokens. -/
noncomputable def newValues (p : AttnParams) (xs : List V) : List V :=
  (qkvList p xs).map (valPart p)

/-- `Attention.forward`, parameterised by the per-row attention semantics
`row` (instantiated with `sourceRow` for the source's `-1e10` soft mask,
and with `idealRow` for the spec's exact-zero mask): project with `c_attn`,
split into query/key/value, prepend the cached keys and values along the
sequence axis, compute each output row, merge heads, and project with
`c_proj`.  Also returns `present = (keys, values)` over the full visible
range.  The query of row `d` is read from the fused projection (its
coordinates below `n_state`). -/
noncomputable def attnForwardG (row : RowFn) (p : AttnParams) (xs : List V)
    (past : Option Cache) : List V × Cache :=
  let keys := pastKeys past ++ newKeys p xs
  let values := pastValues past ++ newValues p xs
  let a := (List.range xs.length).map
    (fun d => row p keys values keys.length xs.length ((qkvList p xs).getD d zeroV) d)
  (a.map (conv1dF p.n_state p.c_proj), ⟨keys, values⟩)

/-- The source `Attention.forward`. -/
noncomputable def attnForward (p : AttnParams) (xs : List V) (past : Option Cache) :
    List V × Cache :=
  attnForwardG sourceRow p xs past

/-- Modelled from the spec: the post-softmax weight of an idealised *exact*
causal mask, under which "position i (row) may only attend to position j
(column) where j ≤ i within the full (past+new) visible range" and
masked-out entries "have ~zero weight" — here exactly zero weight, with the
softmax normalising over the visible (unmasked) columns only.  This is the
semantics the spec attributes to the mask; the source realises it only
approximately through the `-1e10` additive bias of `biasedScore`. -/
noncomputable def idealWeight (p : AttnParams) (keys : List V) (ns nd : ℕ) (q : V)
    (h d c : ℕ) : ℝ :=
  if c ≤ ns - nd + d then
    Real.exp (scaledScore p keys q h c) /
      ∑ x in (Finset.range ns).filter (fun y => y ≤ ns - nd + d),
        Real.exp (scaledScore p keys q h x)
  else 0

/-- Modelled from the spec: attention row under the idealised exact-zero
causal mask (same scores, head merge and value contraction as `sourceRow`,
but with `idealWeight` in place of `attnWeight`). -/
noncomputable def idealRow (p : AttnParams) (keys values : List V) (ns nd : ℕ)
    (q : V) (d : ℕ) : V :=
  fun i => ∑ c in Finset.range ns,
    idealWeight p keys ns nd q (i / p.head_features) d c *
      headSlice p.head_features (i / p.head_features) (values.getD c zeroV)
        (i % p.head_features)

/-! ## Block -/

/-- Parameters of one transformer `Block`. -/
structure BlockParams where
  ln_1 : LNorm
  attn : AttnParams
  ln_2 : LNorm
  mlp : MLP

/-- `Block.forward`, parameterised by the attention-row semantics:
`a, present = attn(ln_1(x), layer_past)`; `x = x + a`;
`m = mlp(ln_2(x))`; `x = x + m`. -/
noncomputable def blockForwardG (row : RowFn) (cfg : Config) (b : BlockParams)
    (xs : List V) (past : Option Cache) : List V × Cache :=
  let ap := attnForwardG row b.attn (xs.map (lnForward cfg.n_embd b.ln_1)) past
  let x1 := List.zipWith vadd xs ap.1
  (List.zipWith vadd x1 (x1.map (fun v => mlpForward cfg b.mlp (lnForward cfg.n_embd b.ln_2 v))),
   ap.2)

/-- The source `Block.forward`. -/
noncomputable def blockForward (cfg : Config) (b : BlockParams) (xs : List V)
    (past : Option Cache) : List V × Cache :=
  blockForwardG sourceRow cfg b xs past

/-! ## GPT2Model -/

/-- Learned parameters of `GPT2Model`: token embedding table `wte`,
position embedding table `wpe`, the block list `h`, and the final norm. -/
structure ModelParams where
  wte : ℕ → V
  wpe : ℕ → V
  h : List BlockParams
  ln_f : LNorm

/-- The loop `for block, layer_past in zip(self.h, past)`: thread the
hidden states through the blocks, collecting each `present` in layer
order.  Like Python's `zip`, recursion stops when either list ends. -/
noncomputable def runBlocksG (row : RowFn) (cfg : Config) :
    List BlockParams → List (Option Cache) → List V → List V × List Cache
  | [], _, hs => (hs, [])
  | _ :: _, [], hs => (hs, [])
  | b :: bs, pl :: ps, hs =>
    let r := blockForwardG row cfg b hs pl
    let rest := runBlocksG row cfg bs ps r.1
    (rest.1, r.2 :: rest.2)

/-- The embedding sum of `GPT2Model.forward`:
`wte(input_ids) + wpe(position_ids) + token_type_embeds`, where the
token-type embeddings are looked up in `wte` itself when token-type ids
are supplied and are the scalar `0` otherwise. -/
def embedSum (m : ModelParams) (ids pos : List ℕ) (tt : Option (List ℕ)) : List V :=
  let tte : List V := match tt with
    | some l => l.map m.wte
    | none => List.replicate ids.length zeroV
  List.zipWith vadd (List.zipWith vadd (ids.map m.wte) (pos.map m.wpe)) tte

/-- `GPT2Model.forward`, parameterised by the attention-row semantics:
`past_length` is `0` with no cache and the stored key sequence length of
layer 0 (`past[0][0].size(-2)`) otherwise; absent position ids default to
`arange(past_length, past_length + len(input_ids))`; the embeddings are
summed, the blocks are run, and the final `LayerNorm` is applied. -/
noncomputable def gpt2ForwardG (row : RowFn) (cfg : Config) (m : ModelParams)
    (input_ids : List ℕ) (position_ids token_type_ids : Option (List ℕ))
    (past : Option (List Cache)) : List V × List Cache :=
  let past_length : ℕ := match past with
    | none => 0
    | some ps => ((ps.getD 0 emptyCache).keys).length
  let pasts : List (Option Cache) := match past with
    | none => List.replicate m.h.length none
    | some ps => ps.map some
  let pos_ids : List ℕ := position_ids.getD (List.range' past_length input_ids.length)
  let r := runBlocksG row cfg m.h pasts (embedSum m input_ids pos_ids token_type_ids)
  (r.1.map (lnForward cfg.n_embd m.ln_f), r.2)

/-- The source `GPT2Model.forward`. -/
noncomputable def gpt2Forward (cfg : Config) (m : ModelParams) (input_ids : List ℕ)
    (position_ids token_type_ids : Option (List ℕ)) (past : Option (List Cache)) :
    List V × List Cache :=
  gpt2ForwardG sourceRow cfg m input_ids position_ids token_type_ids past

/-- Modelled from the spec: `GPT2Model.forward` with the idealised
exact-zero causal mask in every attention (see `idealRow`); all other
components are the source ones. -/
noncomputable def idealGpt2Forward (cfg : Config) (m : ModelParams) (input_ids : List ℕ)
    (position_ids token_type_ids : Option (List ℕ)) (past : Option (List Cache)) :
    List V × List Cache :=
  gpt2ForwardG idealRow cfg m input_ids position_ids token_type_ids past

/-- Incremental decoding driver: feed the tokens one at a time through
`gpt2ForwardG`, passing each returned cache list back in as `past` for the
next call, and collect the single hidden-state row of each step. -/
noncomputable def incrRunG (row : RowFn) (cfg : Config) (m : ModelParams) :
    Option (List Cache) → List ℕ → List V
  | _, [] => []
  | past, tk :: rest =>
    let r := gpt2ForwardG row cfg m [tk] none none past
    r.1.getD 0 zeroV :: incrRunG row cfg m (some r.2) rest

/-! ## GPT2LMHead and GPT2LMHeadModel -/

/-- `GPT2LMHeadModel`: the transformer together with the weight-tied head.
The head's projection matrix is not stored separately: the tying
`self.decoder.weight = model_embeddings_weights` in
`set_embeddings_weights` makes it the very same storage as
`transformer.wte`, which the functional model renders by keeping a single
field and reading the head's matrix from it. -/
structure GPT2LMHeadModelP where
  transformer : ModelParams

/-- The head's effective projection matrix: the shared storage
`transformer.wte` (weight tying). -/
def lmHeadWeight (M : GPT2LMHeadModelP) : ℕ → V := M.transformer.wte

/-- `GPT2LMHead.forward`: `nn.Linear(n_embd, vocab, bias=False)` with the
tied weight, so `logits v = ∑ i < n_embd, hidden i * weight v i` — no bias
term. -/
noncomputable def lmHeadForward (n_embd : ℕ) (w : ℕ → V) (hs : V) : V :=
  fun v => ∑ i in Finset.range n_embd, hs i * w v i

/-- An update of the shared embedding storage (mutating
`transformer.wte.weight` in place, observed functionally). -/
def setSharedEmbedding (M : GPT2LMHeadModelP) (w : ℕ → V) : GPT2LMHeadModelP :=
  { transformer := { M.transformer with wte := w } }

/-- Log-probability assigned to class `t` by softmax over `vocab` logits
(the inner quantity of `nn.CrossEntropyLoss`). -/
noncomputable def logSoftmaxAt (vocab : ℕ) (lv : V) (t : ℕ) : ℝ :=
  Real.log (Real.exp (lv t) / ∑ j in Finset.range vocab, Real.exp (lv j))

/-- Index set of label positions that are not the ignore value `-1`. -/
def ceIdx (n : ℕ) (labels : List ℤ) : Finset ℕ :=
  (Finset.range n).filter (fun p => labels.getD p 0 ≠ -1)

/-- `nn.CrossEntropyLoss(ignore_index=-1)` with the default mean reduction
over the flattened positions: the mean of `-log softmax(logits_p)[label_p]`
over positions whose label is not `-1`.  (With every position ignored the
real-valued quotient `0 / 0` is read as `0` here; torch produces NaN.) -/
noncomputable def ceLoss (vocab : ℕ) (logits : List V) (labels : List ℤ) : ℝ :=
  (∑ p in ceIdx (min logits.length labels.length) labels,
      -logSoftmaxAt vocab (logits.getD p zeroV) (labels.getD p 0).toNat) /
    (ceIdx (min logits.length labels.length) labels).card

/-- Result of `GPT2LMHeadModel.forward`: a scalar loss when labels are
supplied, otherwise the logits plus the updated cache list — mutually
exclusive output modes. -/
inductive LMOutput where
  | loss (l : ℝ)
  | logits (lg : List V) (presents : List Cache)

/-- `GPT2LMHeadModel.forward`: run the transformer, project with the tied
head; with labels return only the cross-entropy loss, otherwise return the
logits and the presents. -/
noncomputable def lmModelForward (cfg : Config) (M : GPT2LMHeadModelP)
    (input_ids : List ℕ) (position_ids token_type_ids : Option (List ℕ))
    (lm_labels : Option (List ℤ)) (past : Option (List Cache)) : LMOutput :=
  let r := gpt2Forward cfg M.transformer input_ids position_ids token_type_ids past
  let lm_logits := r.1.map (lmHeadForward cfg.n_embd (lmHeadWeight M))
  match lm_labels with
  | some lbls => .loss (ceLoss cfg.vocab_size lm_logits lbls)
  | none => .logits lm_logits r.2

/-! ## Construction (`__init__` chain) with the divisibility check -/

/-- The failure class of the spec's error taxonomy raised at construction:
the `assert n_state % config.n_head == 0` of `Attention.__init__`. -/
inductive ShapeError where
  | headDivisibility

/-- Externally supplied projection weights for one `Attention`. -/
structure AttnWeights where
  c_attn : Conv1D
  c_proj : Conv1D

/-- Externally supplied weights for one `Block`. -/
structure BlockWeights where
  attn : AttnWeights
  mlp_c_fc : Conv1D
  mlp_c_proj : Conv1D

/-- Externally supplied weights for `GPT2Model`. -/
structure ModelWeights where
  wte : ℕ → V
  wpe : ℕ → V
  block : BlockWeights

/-- `Attention.__init__`: checks `n_state % config.n_head == 0` (a failed
check aborts construction with the spec's `ShapeError`), then records
`head_features = n_state // n_head` and registers the triangular mask
buffer of extent `n_ctx`. -/
def mkAttention (nx n_ctx : ℕ) (cfg : Config) (scale : Bool) (w : AttnWeights) :
    Except ShapeError AttnParams :=
  if nx % cfg.n_head = 0 then
    .ok { c_attn := w.c_attn, c_proj := w.c_proj, n_head := cfg.n_head,
          head_features := nx / cfg.n_head, n_state := nx, n_ctx := n_ctx,
          scale := scale }
  else .error .headDivisibility

/-- `Block.__init__`: two layer norms with `config.layer_norm_epsilon`, the
attention (propagating its construction failure), and the MLP of width
`4 * n_embd`. -/
def mkBlock (n_ctx : ℕ) (cfg : Config) (scale : Bool) (w : BlockWeights) :
    Except ShapeError BlockParams :=
  (mkAttention cfg.n_embd n_ctx cfg scale w.attn).map fun a =>
    { ln_1 := mkLNorm cfg.n_embd cfg.layer_norm_epsilon, attn := a,
      ln_2 := mkLNorm cfg.n_embd cfg.layer_norm_epsilon,
      mlp := { c_fc := w.mlp_c_fc, c_proj := w.mlp_c_proj } }

/-- `GPT2Model.__init__`: embedding tables, one `Block(config.n_ctx, config,
scale=True)` deep-copied `n_layer` times, and the final norm.  A failing
attention construction aborts model construction, so no forward call can
ever run on such a configuration. -/
def mkGPT2Model (cfg : Config) (w : ModelWeights) : Except ShapeError ModelParams :=
  (mkBlock cfg.n_ctx cfg true w.block).map fun b =>
    { wte := w.wte, wpe := w.wpe, h := List.replicate cfg.n_layer b,
      ln_f := mkLNorm cfg.n_embd cfg.layer_norm_epsilon }

/-! ## Embedding-lookup domain (nn.Embedding index bounds) -/

/-- An `nn.Embedding(num_embeddings, _)` lookup is defined only for indices
below `num_embeddings`. -/
def embedLookupOk (num_embeddings : ℕ) (ids : List ℕ) : Prop :=
  ∀ t ∈ ids, t < num_embeddings

/-- The lookups performed by `GPT2Model.forward`: `input_ids` in
`wte = nn.Embedding(vocab_size, _)`, `position_ids` in
`wpe = nn.Embedding(n_positions, _)`, and — because there is no separate
token-type table — `token_type_ids` in `wte` itself, hence also bounded by
`vocab_size`. -/
def forwardLookupsOk (cfg : Config) (ids pos : List ℕ) (tt : Option (List ℕ)) : Prop :=
  embedLookupOk cfg.vocab_size ids ∧ embedLookupOk cfg.n_positions pos ∧
    ∀ l, tt = some l → embedLookupOk cfg.vocab_size l

/-! ## General list access helpers -/

theorem getD_map_of_lt {α β : Type _} (f : α → β) (l : List α) (d : ℕ) (a : α) (b : β)
    (h : d < l.length) : (l.map f).getD d b = f (l.getD d a) := by
  rw [List.getD_eq_getElem _ _ (by simpa using h), List.getD_eq_getElem _ _ h,
    List.getElem_map]

theorem getD_zipWith_of_lt {α β γ : Type _} (f : α → β → γ) (l1 : List α) (l2 : List β)
    (d : ℕ) (a : α) (b : β) (c : γ) (h1 : d < l1.length) (h2 : d < l2.length) :
    (List.zipWith f l1 l2).getD d c = f (l1.getD d a) (l2.getD d b) := by
  rw [List.getD_eq_getElem _ _ (by simp [List.length_zipWith]; omega),
    List.getD_eq_getElem _ _ h1, List.getD_eq_getElem _ _ h2, List.getElem_zipWith]

theorem getD_take_of_lt {α : Type _} (l : List α) (t d : ℕ) (a : α) (h : d < t) :
    (l.take t).getD d a = l.getD d a := by
  simp only [List.getD, List.get?_eq_getElem?]
  rw [List.getElem?_take_of_lt h]

/-! ## Length preservation through the stack -/

theorem attnForwardG_fst_length (row : RowFn) (p : AttnParams) (xs : List V)
    (past : Option Cache) : (attnForwardG row p xs past).1.length = xs.length := by
  simp [attnForwardG]

theorem blockForwardG_fst_length (row : RowFn) (cfg : Config) (b : BlockParams)
    (xs : List V) (past : Option Cache) :
    (blockForwardG row cfg b xs past).1.length = xs.length := by
  simp [blockForwardG, attnForwardG_fst_length]

theorem runBlocksG_fst_length (row : RowFn) (cfg : Config) (bs : List BlockParams)
    (ps : List (Option Cache)) (hs : List V) :
    (runBlocksG row cfg bs ps hs).1.length = hs.length := by
  induction bs generalizing ps hs with
  | nil => simp [runBlocksG]
  | cons b bs ih =>
    cases ps with
    | nil => simp [runBlocksG]
    | cons pl ps =>
      simp [runBlocksG, ih, blockForwardG_fst_length]

theorem runBlocksG_snd_length (row : RowFn) (cfg : Config) (bs : List BlockParams)
    (ps : List (Option Cache)) (hs : List V) :
    (runBlocksG row cfg bs ps hs).2.length = min bs.length ps.length := by
  induction bs generalizing ps hs with
  | nil => simp [runBlocksG]
  | cons b bs ih =>
    cases ps with
    | nil => simp [runBlocksG]
    | cons pl ps =>
      simp [runBlocksG, ih]
      omega

/-! ## C4: pre-norm residual order in `Block.forward` -/

/-- Row `d` of `blockForwardG`: the two residual additions around the
attention and MLP sublayers, at one position. -/
theorem blockForwardG_getD (row : RowFn) (cfg : Config) (b : BlockParams) (xs : List V)
    (past : Option Cache) (d : ℕ) (hd : d < xs.length) :
    (blockForwardG row cfg b xs past).1.getD d zeroV =
      vadd
        (vadd (xs.getD d zeroV)
          ((attnForwardG row b.attn (xs.map (lnForward cfg.n_embd b.ln_1)) past).1.getD d zeroV))
        (mlpForward cfg b.mlp (lnForward cfg.n_embd b.ln_2
          (vadd (xs.getD d zeroV)
            ((attnForwardG row b.attn (xs.map (lnForward cfg.n_embd b.ln_1)) past).1.getD d zeroV)))) := by
  set a := (attnForwardG row b.attn (xs.map (lnForward cfg.n_embd b.ln_1)) past).1 with hadef
  have ha : a.length = xs.length := by
    rw [hadef]
    rw [attnForwardG_fst_length]
    simp
  set g := fun v => mlpForward cfg b.mlp (lnForward cfg.n_embd b.ln_2 v) with hgdef
  set x1 := List.zipWith vadd xs a with hx1def
  have hx1 : x1.length = xs.length := by
    rw [hx1def, List.length_zipWith, ha, min_self]
  have h3 : x1.getD d zeroV = vadd (xs.getD d zeroV) (a.getD d zeroV) :=
    getD_zipWith_of_lt vadd xs a d zeroV zeroV zeroV hd (ha ▸ hd)
  have h2 : (x1.map g).getD d zeroV = g (x1.getD d zeroV) :=
    getD_map_of_lt g x1 d zeroV zeroV (hx1 ▸ hd)
  have h1 : (List.zipWith vadd x1 (x1.map g)).getD d zeroV
      = vadd (x1.getD d zeroV) ((x1.map g).getD d zeroV) :=
    getD_zipWith_of_lt vadd x1 (x1.map g) d zeroV zeroV zeroV (hx1 ▸ hd)
      (by rw [List.length_map, hx1]; exact hd)
  show (List.zipWith vadd x1 (x1.map g)).getD d zeroV = _
  rw [h1, h2, h3]

/-- C4.  `Block.forward` computes, in this exact order,
`hidden' = x + Attention(LayerNorm1(x))` and then
`output = hidden' + MLP(LayerNorm2(hidden'))`: both residual additions use
the pre-normalization hidden state, never the normalized one, and the
attention's cache entry is passed through unchanged. -/
theorem c4_block_residual_order (cfg : Config) (b : BlockParams) (xs : List V)
    (past : Option Cache) (d : ℕ) (hd : d < xs.length) :
    (blockForward cfg b xs past).1.getD d zeroV =
      vadd
        (vadd (xs.getD d zeroV)
          ((attnForward b.attn (xs.map (lnForward cfg.n_embd b.ln_1)) past).1.getD d zeroV))
        (mlpForward cfg b.mlp (lnForward cfg.n_embd b.ln_2
          (vadd (xs.getD d zeroV)
            ((attnForward b.attn (xs.map (lnForward cfg.n_embd b.ln_1)) past).1.getD d zeroV)))) ∧
    (blockForward cfg b xs past).2 =
      (attnForward b.attn (xs.map (lnForward cfg.n_embd b.ln_1)) past).2 :=
  ⟨blockForwardG_getD sourceRow cfg b xs past d hd, rfl⟩

/-- C4 witness at a concrete input. -/
theorem c4_block_residual_order_witness :
    (0 : ℕ) < [zeroV].length ∧
    ((blockForward ⟨1, 1, 1, 1, 1, 1, 0⟩
        ⟨mkLNorm 1 0, ⟨⟨fun _ _ => 0, zeroV⟩, ⟨fun _ _ => 0, zeroV⟩, 1, 1, 1, 1, true⟩,
         mkLNorm 1 0, ⟨⟨fun _ _ => 0, zeroV⟩, ⟨fun _ _ => 0, zeroV⟩⟩⟩ [zeroV] none).1.getD 0 zeroV =
      vadd
        (vadd ([zeroV].getD 0 zeroV)
          ((attnForward ⟨⟨fun _ _ => 0, zeroV⟩, ⟨fun _ _ => 0, zeroV⟩, 1, 1, 1, 1, true⟩
            ([zeroV].map (lnForward 1 (mkLNorm 1 0))) none).1.getD 0 zeroV))
        (mlpForward ⟨1, 1, 1, 1, 1, 1, 0⟩ ⟨⟨fun _ _ => 0, zeroV⟩, ⟨fun _ _ => 0, zeroV⟩⟩
          (lnForward 1 (mkLNorm 1 0)
            (vadd ([zeroV].getD 0 zeroV)
              ((attnForward ⟨⟨fun _ _ => 0, zeroV⟩, ⟨fun _ _ => 0, zeroV⟩, 1, 1, 1, 1, true⟩
                ([zeroV].map (lnForward 1 (mkLNorm 1 0))) none).1.getD 0 zeroV)))) ∧
      (blockForward ⟨1, 1, 1, 1, 1, 1, 0⟩
        ⟨mkLNorm 1 0, ⟨⟨fun _ _ => 0, zeroV⟩, ⟨fun _ _ => 0, zeroV⟩, 1, 1, 1, 1, true⟩,
         mkLNorm 1 0, ⟨⟨fun _ _ => 0, zeroV⟩, ⟨fun _ _ => 0, zeroV⟩⟩⟩ [zeroV] none).2 =
      (attnForward ⟨⟨fun _ _ => 0, zeroV⟩, ⟨fun _ _ => 0, zeroV⟩, 1, 1, 1, 1, true⟩
        ([zeroV].map (lnForward 1 (mkLNorm 1 0))) none).2) :=
  ⟨by simp, c4_block_residual_order _ _ _ _ 0 (by simp)⟩

/-! ## C5: LayerNorm contract -/

/-- C5.  `LayerNorm.forward` returns
`scale * (x - mean) / sqrt(variance + eps) + shift` per position over the
last axis, where `variance` is the biased estimator (divisor `n`, the
feature count, not `n - 1`), and the constructor's epsilon defaults to
`1e-12` unless overridden (the blocks override it with
`config.layer_norm_epsilon`, see `mkBlock`). -/
theorem c5_layernorm_contract :
    (∀ (n : ℕ) (p : LNorm) (x : V) (j : ℕ),
      lnForward n p x j =
        p.weight j * ((x j - (∑ i in Finset.range n, x i) / n) /
          Real.sqrt ((∑ i in Finset.range n,
            (x i - (∑ k in Finset.range n, x k) / n) ^ 2) / n + p.eps)) + p.bias j) ∧
    (∀ hidden_size : ℕ, (mkLNormDefault hidden_size).eps = 1e-12) :=
  ⟨fun _ _ _ _ => rfl, fun _ => rfl⟩

/-! ## C6: weight tying between `wte` and the LM head -/

/-- C6.  The LM head's projection matrix is the same underlying storage as
the token-embedding table and the head has no bias term: updating the
shared storage is observed identically through both access paths — the
embedding lookup (`transformer.wte`) and the logit projection
(`lmHeadWeight` / `lmHeadForward`, whose logit for class `v` is the bare
dot product with row `v` of the shared table, with no bias summand). -/
theorem c6_weight_tying (M : GPT2LMHeadModelP) (w : ℕ → V) :
    lmHeadWeight (setSharedEmbedding M w) = w ∧
    (setSharedEmbedding M w).transformer.wte = w ∧
    ∀ (n : ℕ) (hs : V) (v : ℕ),
      lmHeadForward n (lmHeadWeight (setSharedEmbedding M w)) hs v =
        ∑ i in Finset.range n, hs i * w v i :=
  ⟨rfl, rfl, fun _ _ _ => rfl⟩

/-! ## C3: position-id defaulting in `GPT2Model.forward` -/

/-- C3.  When no explicit position ids are given, `GPT2Model.forward` uses
`0 .. len-1` if no cache is supplied, and continues from the cached
sequence length (`past[0][0].size(-2)`) — i.e. uses
`past_length .. past_length + len - 1` — when a cache is supplied. -/
theorem c3_position_id_defaulting (cfg : Config) (m : ModelParams) (ids : List ℕ)
    (tt : Option (List ℕ)) :
    (gpt2Forward cfg m ids none tt none =
      gpt2Forward cfg m ids (some (List.range ids.length)) tt none) ∧
    (∀ ps : List Cache, ps ≠ [] →
      gpt2Forward cfg m ids none tt (some ps) =
        gpt2Forward cfg m ids
          (some (List.range' ((ps.getD 0 emptyCache).keys.length) ids.length)) tt
          (some ps)) := by
  constructor
  · show gpt2ForwardG sourceRow cfg m ids none tt none = _
    rw [List.range_eq_range']
    rfl
  · intro ps _
    rfl

/-- C3 witness at a concrete input. -/
theorem c3_position_id_defaulting_witness :
    ([emptyCache] ≠ ([] : List Cache)) ∧
    gpt2Forward ⟨1, 1, 1, 1, 1, 0, 0⟩ ⟨fun _ => zeroV, fun _ => zeroV, [], mkLNorm 1 0⟩
        [0] none none (some [emptyCache]) =
      gpt2Forward ⟨1, 1, 1, 1, 1, 0, 0⟩ ⟨fun _ => zeroV, fun _ => zeroV, [], mkLNorm 1 0⟩
        [0] (some (List.range' (([emptyCache].getD 0 emptyCache).keys.length) 1)) none
        (some [emptyCache]) :=
  ⟨by simp,
   (c3_position_id_defaulting ⟨1, 1, 1, 1, 1, 0, 0⟩
      ⟨fun _ => zeroV, fun _ => zeroV, [], mkLNorm 1 0⟩ [0] none).2 [emptyCache] (by simp)⟩

/-! ## C9: context-length precondition of the mask slice -/

/-- C9.  The mask buffer is a fixed `n_ctx × n_ctx` lower-triangular table
created at construction, and the slice `bias[:, :, ns-nd:ns, :ns]` of
`_attn` selects only in-range buffer entries — for every query row `d < nd`
and key column `c < ns` — precisely when the total visible length `ns`
(past + new) is at most `n_ctx`; within that bound the selected window is
exactly the aligned causal window `c ≤ ns - nd + d`. -/
theorem c9_mask_window (n_ctx ns nd : ℕ) (hnd : 0 < nd) (hns : nd ≤ ns) :
    ((∀ d < nd, ∀ c < ns, maskIndexOk n_ctx ns nd d c) ↔ ns ≤ n_ctx) ∧
    (ns ≤ n_ctx → ∀ d < nd, ∀ c < ns,
      triBias n_ctx (ns - nd + d) c = if c ≤ ns - nd + d then 1 else 0) := by
  constructor
  · constructor
    · intro hall
      rcases hall (nd - 1) (by omega) (ns - 1) (by omega) with ⟨h1, _⟩
      omega
    · intro hle d hd c hc
      exact ⟨by omega, by omega⟩
  · intro hle d hd c hc
    unfold triBias
    by_cases h : c ≤ ns - nd + d
    · rw [if_pos ⟨by omega, by omega, h⟩, if_pos h]
    · rw [if_neg (fun hcon => h hcon.2.2), if_neg h]

/-- C9 witness at a concrete input. -/
theorem c9_mask_window_witness :
    ((0 < 1 ∧ 1 ≤ 2) ∧
      (((∀ d < 1, ∀ c < 2, maskIndexOk 2 2 1 d c) ↔ 2 ≤ 2) ∧
       (2 ≤ 2 → ∀ d < 1, ∀ c < 2,
         triBias 2 (2 - 1 + d) c = if c ≤ 2 - 1 + d then 1 else 0))) :=
  ⟨⟨by decide, by decide⟩, c9_mask_window 2 2 1 (by decide) (by decide)⟩

/-! ## C10: token-type embeddings come from `wte` itself -/

/-- C10.  When token-type ids are supplied, `GPT2Model.forward` looks them
up in the token-embedding table `wte` itself (there is no separate
token-type table), so validity of the lookup requires every token-type id
to be below `vocab_size`; when they are absent, the token-type contribution
to the embedding sum is exactly zero. -/
theorem c10_token_type_embedding (cfg : Config) (m : ModelParams) (ids pos tts : List ℕ)
    (p : ℕ) (h1 : p < ids.length) (h2 : p < pos.length) (h3 : p < tts.length) :
    (embedSum m ids pos (some tts)).getD p zeroV =
      vadd (vadd (m.wte (ids.getD p 0)) (m.wpe (pos.getD p 0))) (m.wte (tts.getD p 0)) ∧
    (embedSum m ids pos none).getD p zeroV =
      vadd (vadd (m.wte (ids.getD p 0)) (m.wpe (pos.getD p 0))) zeroV ∧
    (forwardLookupsOk cfg ids pos (some tts) → ∀ t ∈ tts, t < cfg.vocab_size) := by
  have einner : (List.zipWith vadd (ids.map m.wte) (pos.map m.wpe)).getD p zeroV
      = vadd ((ids.map m.wte).getD p zeroV) ((pos.map m.wpe).getD p zeroV) :=
    getD_zipWith_of_lt vadd (ids.map m.wte) (pos.map m.wpe) p zeroV zeroV zeroV
      (by simpa using h1) (by simpa using h2)
  have eids : (ids.map m.wte).getD p zeroV = m.wte (ids.getD p 0) :=
    getD_map_of_lt m.wte ids p 0 zeroV h1
  have epos : (pos.map m.wpe).getD p zeroV = m.wpe (pos.getD p 0) :=
    getD_map_of_lt m.wpe pos p 0 zeroV h2
  refine ⟨?_, ?_, fun hok => hok.2.2 tts rfl⟩
  · have e1 : (List.zipWith vadd (List.zipWith vadd (ids.map m.wte) (pos.map m.wpe))
        (tts.map m.wte)).getD p zeroV
        = vadd ((List.zipWith vadd (ids.map m.wte) (pos.map m.wpe)).getD p zeroV)
          ((tts.map m.wte).getD p zeroV) :=
      getD_zipWith_of_lt vadd (List.zipWith vadd (ids.map m.wte) (pos.map m.wpe))
        (tts.map m.wte) p zeroV zeroV zeroV
        (by rw [List.length_zipWith]; simp; omega) (by simpa using h3)
    have etts : (tts.map m.wte).getD p zeroV = m.wte (tts.getD p 0) :=
      getD_map_of_lt m.wte tts p 0 zeroV h3
    show (List.zipWith vadd (List.zipWith vadd (ids.map m.wte) (pos.map m.wpe))
        (tts.map m.wte)).getD p zeroV = _
    rw [e1, einner, eids, epos, etts]
  · have e1 : (List.zipWith vadd (List.zipWith vadd (ids.map m.wte) (pos.map m.wpe))
        (List.replicate ids.length zeroV)).getD p zeroV
        = vadd ((List.zipWith vadd (ids.map m.wte) (pos.map m.wpe)).getD p zeroV)
          ((List.replicate ids.length zeroV).getD p zeroV) :=
      getD_zipWith_of_lt vadd (List.zipWith vadd (ids.map m.wte) (pos.map m.wpe))
        (List.replicate ids.length zeroV) p zeroV zeroV zeroV
        (by rw [List.length_zipWith]; simp; omega) (by simpa using h1)
    have erep : (List.replicate ids.length zeroV).getD p zeroV = zeroV := by
      rw [List.getD_eq_getElem _ _ (by simpa using h1), List.getElem_replicate]
    show (List.zipWith vadd (List.zipWith vadd (ids.map m.wte) (pos.map m.wpe))
        (List.replicate ids.length zeroV)).getD p zeroV = _
    rw [e1, einner, eids, epos, erep]

/-- C10 witness at a concrete input. -/
theorem c10_token_type_embedding_witness :
    ((0 : ℕ) < [0].length ∧ (0 : ℕ) < [1].length ∧ (0 : ℕ) < [2].length) ∧
    ((embedSum ⟨fun _ => zeroV, fun _ => zeroV, [], mkLNorm 1 0⟩ [0] [1] (some [2])).getD 0 zeroV =
      vadd (vadd ((fun _ => zeroV : ℕ → V) ([0].getD 0 0)) ((fun _ => zeroV : ℕ → V) ([1].getD 0 0)))
        ((fun _ => zeroV : ℕ → V) ([2].getD 0 0)) ∧
     (embedSum ⟨fun _ => zeroV, fun _ => zeroV, [], mkLNorm 1 0⟩ [0] [1] none).getD 0 zeroV =
      vadd (vadd ((fun _ => zeroV : ℕ → V) ([0].getD 0 0)) ((fun _ => zeroV : ℕ → V) ([1].getD 0 0)))
        zeroV ∧
     (forwardLookupsOk ⟨3, 2, 1, 1, 1, 0, 0⟩ [0] [1] (some [2]) → ∀ t ∈ [2], t < 3)) :=
  ⟨⟨by decide, by decide, by decide⟩,
   c10_token_type_embedding ⟨3, 2, 1, 1, 1, 0, 0⟩
     ⟨fun _ => zeroV, fun _ => zeroV, [], mkLNorm 1 0⟩ [0] [1] [2] 0
     (by decide) (by decide) (by decide)⟩

/-! ## C8: head-divisibility check at construction -/

/-- C8.  If the configured head count does not evenly divide the embedding
width, `GPT2Model` construction fails with the spec's `ShapeError` (the
`assert n_state % config.n_head == 0` of `Attention.__init__`) before any
forward call can run; if it divides evenly, construction succeeds and every
layer's attention has head width `n_embd / n_head`. -/
theorem c8_head_divisibility (cfg : Config) (w : ModelWeights) (hpos : 0 < cfg.n_head) :
    (¬ cfg.n_head ∣ cfg.n_embd → mkGPT2Model cfg w = .error .headDivisibility) ∧
    (cfg.n_head ∣ cfg.n_embd → ∃ m, mkGPT2Model cfg w = .ok m ∧
      m.h.length = cfg.n_layer ∧
      ∀ b ∈ m.h, b.attn.head_features = cfg.n_embd / cfg.n_head) := by
  constructor
  · intro hnd
    have hm : ¬ (cfg.n_embd % cfg.n_head = 0) := fun h =>
      hnd (Nat.dvd_iff_mod_eq_zero.mpr h)
    unfold mkGPT2Model mkBlock mkAttention
    rw [if_neg hm]
    rfl
  · intro hd
    have hm : cfg.n_embd % cfg.n_head = 0 := Nat.dvd_iff_mod_eq_zero.mp hd
    unfold mkGPT2Model mkBlock mkAttention
    rw [if_pos hm]
    refine ⟨_, rfl, by simp, ?_⟩
    intro b hb
    rw [List.eq_of_mem_replicate hb]

/-- C8 witness at a concrete configuration (2 heads, width 4). -/
theorem c8_head_divisibility_witness :
    (0 < 2) ∧
    ((¬ (2 : ℕ) ∣ 4 →
        mkGPT2Model ⟨1, 1, 1, 4, 2, 1, 0⟩
          ⟨fun _ => zeroV, fun _ => zeroV,
           ⟨⟨⟨fun _ _ => 0, zeroV⟩, ⟨fun _ _ => 0, zeroV⟩⟩,
            ⟨fun _ _ => 0, zeroV⟩, ⟨fun _ _ => 0, zeroV⟩⟩⟩ = .error .headDivisibility) ∧
     ((2 : ℕ) ∣ 4 → ∃ m,
        mkGPT2Model ⟨1, 1, 1, 4, 2, 1, 0⟩
          ⟨fun _ => zeroV, fun _ => zeroV,
           ⟨⟨⟨fun _ _ => 0, zeroV⟩, ⟨fun _ _ => 0, zeroV⟩⟩,
            ⟨fun _ _ => 0, zeroV⟩, ⟨fun _ _ => 0, zeroV⟩⟩⟩ = .ok m ∧
        m.h.length = 1 ∧ ∀ b ∈ m.h, b.attn.head_features = 4 / 2)) :=
  ⟨by decide,
   c8_head_divisibility ⟨1, 1, 1, 4, 2, 1, 0⟩
     ⟨fun _ => zeroV, fun _ => zeroV,
      ⟨⟨⟨fun _ _ => 0, zeroV⟩, ⟨fun _ _ => 0, zeroV⟩⟩,
       ⟨fun _ _ => 0, zeroV⟩, ⟨fun _ _ => 0, zeroV⟩⟩⟩ (by decide)⟩

/-! ## C7: mutually exclusive output modes of `GPT2LMHeadModel.forward` -/

/-- C7.  With labels supplied, `GPT2LMHeadModel.forward` returns only a
scalar loss: the mean cross-entropy over the flattened positions whose
label is not the ignore value `-1` (positions labelled `-1` have no
influence on the loss); with no labels it returns the raw logits together
with the updated per-layer cache list. -/
theorem c7_output_modes (cfg : Config) (M : GPT2LMHeadModelP) (ids : List ℕ)
    (pos tt : Option (List ℕ)) (past : Option (List Cache)) :
    (∀ lbls : List ℤ,
      lmModelForward cfg M ids pos tt (some lbls) past =
        .loss (ceLoss cfg.vocab_size
          ((gpt2Forward cfg M.transformer ids pos tt past).1.map
            (lmHeadForward cfg.n_embd (lmHeadWeight M))) lbls)) ∧
    (lmModelForward cfg M ids pos tt none past =
      .logits
        ((gpt2Forward cfg M.transformer ids pos tt past).1.map
          (lmHeadForward cfg.n_embd (lmHeadWeight M)))
        (gpt2Forward cfg M.transformer ids pos tt past).2) ∧
    (∀ (vocab : ℕ) (lg1 lg2 : List V) (lbls : List ℤ), lg1.length = lg2.length →
      (∀ p, p < lbls.length → lbls.getD p 0 ≠ -1 → lg1.getD p zeroV = lg2.getD p zeroV) →
      ceLoss vocab lg1 lbls = ceLoss vocab lg2 lbls) := by
  refine ⟨fun lbls => rfl, rfl, ?_⟩
  intro vocab lg1 lg2 lbls hlen hpt
  unfold ceLoss
  rw [hlen]
  congr 1
  apply Finset.sum_congr rfl
  intro p hp
  have hp' := Finset.mem_filter.mp hp
  have hplt : p < lbls.length := by
    have := Finset.mem_range.mp hp'.1
    omega
  rw [hpt p hplt hp'.2]

/-- C7 witness: labels equal to the ignore value `-1` make the loss
independent of the logits at those positions. -/
theorem c7_output_modes_witness :
    ((1 : ℕ) = (1 : ℕ)) ∧
    ceLoss 3 [fun _ => 1] [-1] = ceLoss 3 [fun _ => 2] [-1] :=
  ⟨rfl,
   (c7_output_modes ⟨3, 1, 1, 1, 1, 0, 0⟩ ⟨⟨fun _ => zeroV, fun _ => zeroV, [], mkLNorm 1 0⟩⟩
      [] none none none).2.2 3 [fun _ => 1] [fun _ => 2] [-1] rfl
     (by
       intro p hp hne
       have hp0 : p = 0 := by simpa using hp
       subst hp0
       exact absurd rfl hne)⟩

/-! ## C2: the soft causal mask and its post-softmax weights -/

/-- An all-zero `Conv1D` parameter block (used in concrete instances). -/
def cZero : Conv1D := ⟨fun _ _ => 0, zeroV⟩

theorem exp_neg_nineteen_lt : Real.exp (-19 : ℝ) < 1e-8 := by
  rw [Real.exp_neg, inv_lt_comm₀ (Real.exp_pos _) (by norm_num)]
  have h1 : (2.7182818283 : ℝ) ^ (19 : ℕ) < Real.exp 1 ^ (19 : ℕ) :=
    pow_lt_pow_left₀ Real.exp_one_gt_d9 (by norm_num) (by norm_num)
  have h2 : Real.exp 1 ^ (19 : ℕ) = Real.exp 19 := by
    rw [Real.exp_one_pow]
    norm_num
  nlinarith [h1, h2]

/-- C2 counterexample.  One head of one feature, `n_ctx = 2`, no cache
(`ns = nd = 2`), query row `d = 0` (global position `i = 0`), masked key
column `c = 1 > i`.  The raw unmasked score of the row is `-2e10`
(reachable, since `_attn` receives arbitrary projected inputs), which is
*below* the `-1e10` the mask writes into masked entries, so the masked
entry dominates the softmax: its weight is `≥ 1/2`, not `< 1e-8`.  The
`-1e10` soft mask bounds masked weights only relative to the magnitude of
the genuine scores. -/
theorem c2_causal_weight_counterexample :
    (0 : ℕ) < 2 ∧ (1 : ℕ) < 2 ∧ (2 - 2 + 0 : ℕ) < 1 ∧
    ¬ (attnWeight ⟨cZero, cZero, 1, 1, 1, 2, true⟩
        [fun _ => 1, fun _ => 0] 2 2 (fun _ => -2e10) 0 0 1 < 1e-8) := by
  refine ⟨by decide, by decide, by decide, ?_⟩
  have h0 : biasedScore ⟨cZero, cZero, 1, 1, 1, 2, true⟩
      [fun _ => 1, fun _ => 0] 2 2 (fun _ => -2e10) 0 0 0 = -2e10 := by
    simp [biasedScore, scaledScore, rawScore, dotR, headSlice, triBias,
      Finset.sum_range_one, Real.sqrt_one]
  have h1 : biasedScore ⟨cZero, cZero, 1, 1, 1, 2, true⟩
      [fun _ => 1, fun _ => 0] 2 2 (fun _ => -2e10) 0 0 1 = -1e10 := by
    simp [biasedScore, scaledScore, rawScore, dotR, headSlice, triBias,
      Finset.sum_range_one, Real.sqrt_one]
  have hw : attnWeight ⟨cZero, cZero, 1, 1, 1, 2, true⟩
      [fun _ => 1, fun _ => 0] 2 2 (fun _ => -2e10) 0 0 1
      = Real.exp (-1e10) / (Real.exp (-2e10) + Real.exp (-1e10)) := by
    unfold attnWeight
    rw [Finset.sum_range_succ, Finset.sum_range_one, h0, h1]
  rw [hw]
  have hle : Real.exp (-2e10 : ℝ) ≤ Real.exp (-1e10 : ℝ) :=
    Real.exp_le_exp.mpr (by norm_num)
  have hpos : (0 : ℝ) < Real.exp (-2e10) + Real.exp (-1e10) := by positivity
  have hhalf : (1 : ℝ) / 2 ≤ Real.exp (-1e10) / (Real.exp (-2e10) + Real.exp (-1e10)) := by
    rw [div_le_div_iff₀ (by norm_num) hpos]
    nlinarith [Real.exp_pos (-1e10 : ℝ)]
  intro hlt
  nlinarith [hhalf, hlt]

/-- C2 amended.  For all query position `i = ns - nd + d` and key position
`c` with `i < c` within the full (past+new) visible range, *provided* the
visible range fits the mask buffer (`ns ≤ n_ctx`) and every genuine
(scaled) score of the call is bounded below by `-1e9` (any realistic
magnitude; the source mask constant is `-1e10`), the post-softmax weight
from `i` to `c` is below `1e-8`.  Moreover the mask is implemented by
*overwriting* the masked score with exactly `-1e10`
(`w * b - 1e10 * (1 - b)`), not by adding `-1e10` to it. -/
theorem c2_causal_weight_amended (p : AttnParams) (keys : List V) (ns nd : ℕ) (q : V)
    (h d c : ℕ) (hd : d < nd) (hnd : nd ≤ ns) (hctx : ns ≤ p.n_ctx) (hc : c < ns)
    (hfut : ns - nd + d < c)
    (hbound : ∀ x < ns, (-1e9 : ℝ) ≤ scaledScore p keys q h x) :
    biasedScore p keys ns nd q h d c = -1e10 ∧
    attnWeight p keys ns nd q h d c < 1e-8 := by
  have hr : ns - nd + d < ns := by omega
  have hmask : biasedScore p keys ns nd q h d c = -1e10 := by
    unfold biasedScore triBias
    rw [if_neg (fun hcon => absurd hcon.2.2 (by omega))]
    ring
  refine ⟨hmask, ?_⟩
  have hunmasked : biasedScore p keys ns nd q h d (ns - nd + d)
      = scaledScore p keys q h (ns - nd + d) := by
    unfold biasedScore triBias
    rw [if_pos ⟨by omega, by omega, le_refl _⟩]
    ring
  have hZ : Real.exp (-1e9 : ℝ) ≤
      ∑ x in Finset.range ns, Real.exp (biasedScore p keys ns nd q h d x) := by
    have hmem : ns - nd + d ∈ Finset.range ns := Finset.mem_range.mpr hr
    have hsingle : Real.exp (biasedScore p keys ns nd q h d (ns - nd + d)) ≤
        ∑ x in Finset.range ns, Real.exp (biasedScore p keys ns nd q h d x) :=
      Finset.single_le_sum (fun i _ => (Real.exp_pos _).le) hmem
    have hlow : Real.exp (-1e9 : ℝ) ≤
        Real.exp (biasedScore p keys ns nd q h d (ns - nd + d)) := by
      rw [hunmasked]
      exact Real.exp_le_exp.mpr (hbound _ hr)
    linarith
  have hZpos : (0 : ℝ) <
      ∑ x in Finset.range ns, Real.exp (biasedScore p keys ns nd q h d x) := by
    have := Real.exp_pos (-1e9 : ℝ)
    linarith
  have hstep : attnWeight p keys ns nd q h d c ≤ Real.exp (-1e10) / Real.exp (-1e9) := by
    unfold attnWeight
    rw [hmask]
    exact div_le_div_of_nonneg_left (Real.exp_pos _).le (Real.exp_pos _) hZ
  have hdiv : Real.exp (-1e10 : ℝ) / Real.exp (-1e9 : ℝ) = Real.exp (-1e10 - -1e9) := by
    rw [← Real.exp_sub]
  have hmono : Real.exp (-1e10 - -1e9 : ℝ) ≤ Real.exp (-19 : ℝ) :=
    Real.exp_le_exp.mpr (by norm_num)
  calc attnWeight p keys ns nd q h d c
      ≤ Real.exp (-1e10) / Real.exp (-1e9) := hstep
    _ = Real.exp (-1e10 - -1e9) := hdiv
    _ ≤ Real.exp (-19 : ℝ) := hmono
    _ < 1e-8 := exp_neg_nineteen_lt

/-- C2 amended, witness at a concrete input (all genuine scores zero). -/
theorem c2_causal_weight_amended_witness :
    ((0 : ℕ) < 2 ∧ (2 : ℕ) ≤ 2 ∧ (2 : ℕ) ≤ 2 ∧ (1 : ℕ) < 2 ∧ (2 - 2 + 0 : ℕ) < 1 ∧
      (∀ x < 2, (-1e9 : ℝ) ≤
        scaledScore ⟨cZero, cZero, 1, 1, 1, 2, true⟩ [fun _ => 1, fun _ => 0]
          (fun _ => 0) 0 x)) ∧
    (biasedScore ⟨cZero, cZero, 1, 1, 1, 2, true⟩ [fun _ => 1, fun _ => 0] 2 2
        (fun _ => 0) 0 0 1 = -1e10 ∧
      attnWeight ⟨cZero, cZero, 1, 1, 1, 2, true⟩ [fun _ => 1, fun _ => 0] 2 2
        (fun _ => 0) 0 0 1 < 1e-8) :=
  ⟨⟨by decide, by decide, by decide, by decide, by decide,
    by
      intro x hx
      simp [scaledScore, rawScore, dotR, headSlice, Finset.sum_range_one, Real.sqrt_one]
      norm_num⟩,
   c2_causal_weight_amended ⟨cZero, cZero, 1, 1, 1, 2, true⟩ [fun _ => 1, fun _ => 0] 2 2
     (fun _ => 0) 0 0 1 (by decide) (by decide) (by decide) (by decide) (by decide)
     (by
       intro x hx
       simp [scaledScore, rawScore, dotR, headSlice, Finset.sum_range_one, Real.sqrt_one]
       norm_num)⟩

/-! ## C1 machinery: pointwise list reasoning -/

theorem list_ext_getD {α : Type _} (d : α) (l1 l2 : List α) (hlen : l1.length = l2.length)
    (h : ∀ i < l1.length, l1.getD i d = l2.getD i d) : l1 = l2 := by
  apply List.ext_getElem hlen
  intro i h1 h2
  have hi := h i h1
  rwa [List.getD_eq_getElem _ _ h1, List.getD_eq_getElem _ _ h2] at hi

theorem qkvList_length (p : AttnParams) (xs : List V) : (qkvList p xs).length = xs.length := by
  simp [qkvList]

theorem newKeys_length (p : AttnParams) (xs : List V) : (newKeys p xs).length = xs.length := by
  simp [newKeys, qkvList]

theorem newValues_length (p : AttnParams) (xs : List V) :
    (newValues p xs).length = xs.length := by
  simp [newValues, qkvList]

theorem qkvList_take (p : AttnParams) (xs : List V) (t : ℕ) :
    qkvList p (xs.take t) = (qkvList p xs).take t := by
  simp [qkvList, List.map_take]

theorem newKeys_take (p : AttnParams) (xs : List V) (t : ℕ) :
    newKeys p (xs.take t) = (newKeys p xs).take t := by
  simp [newKeys, qkvList_take, List.map_take]

theorem newValues_take (p : AttnParams) (xs : List V) (t : ℕ) :
    newValues p (xs.take t) = (newValues p xs).take t := by
  simp [newValues, qkvList_take, List.map_take]

theorem qkvList_getD (p : AttnParams) (xs : List V) (d : ℕ) (hd : d < xs.length) :
    (qkvList p xs).getD d zeroV = conv1dF p.n_state p.c_attn (xs.getD d zeroV) :=
  getD_map_of_lt _ xs d zeroV zeroV hd

theorem newKeys_getD (p : AttnParams) (xs : List V) (d : ℕ) (hd : d < xs.length) :
    (newKeys p xs).getD d zeroV = keyPart p (conv1dF p.n_state p.c_attn (xs.getD d zeroV)) := by
  unfold newKeys
  rw [getD_map_of_lt _ (qkvList p xs) d zeroV zeroV (by rw [qkvList_length]; exact hd),
    qkvList_getD p xs d hd]

theorem newValues_getD (p : AttnParams) (xs : List V) (d : ℕ) (hd : d < xs.length) :
    (newValues p xs).getD d zeroV = valPart p (conv1dF p.n_state p.c_attn (xs.getD d zeroV)) := by
  unfold newValues
  rw [getD_map_of_lt _ (qkvList p xs) d zeroV zeroV (by rw [qkvList_length]; exact hd),
    qkvList_getD p xs d hd]

theorem attnForwardG_snd (row : RowFn) (p : AttnParams) (xs : List V) (past : Option Cache) :
    (attnForwardG row p xs past).2 =
      ⟨pastKeys past ++ newKeys p xs, pastValues past ++ newValues p xs⟩ := rfl

theorem attnForwardG_fst_getD (row : RowFn) (p : AttnParams) (xs : List V)
    (past : Option Cache) (d : ℕ) (hd : d < xs.length) :
    (attnForwardG row p xs past).1.getD d zeroV =
      conv1dF p.n_state p.c_proj
        (row p (pastKeys past ++ newKeys p xs) (pastValues past ++ newValues p xs)
          (pastKeys past ++ newKeys p xs).length xs.length
          ((qkvList p xs).getD d zeroV) d) := by
  have hrange : (List.range xs.length).getD d 0 = d := by
    rw [List.getD_eq_getElem _ _ (by simpa using hd), List.getElem_range]
  show (((List.range xs.length).map _).map (conv1dF p.n_state p.c_proj)).getD d zeroV = _
  rw [getD_map_of_lt (conv1dF p.n_state p.c_proj) _ d zeroV zeroV (by simpa using hd),
    getD_map_of_lt _ (List.range xs.length) d 0 zeroV (by simpa using hd), hrange]

/-! ## C1 machinery: the ideal attention row in normal form -/

theorem filter_range_le (ns r : ℕ) (h : r < ns) :
    (Finset.range ns).filter (fun y => y ≤ r) = Finset.range (r + 1) := by
  ext x
  simp only [Finset.mem_filter, Finset.mem_range, Nat.lt_succ_iff]
  omega

/-- Normal form of `idealRow`: attention at absolute query position `r`
over the first `r + 1` visible positions. -/
noncomputable def idealAttnAt (p : AttnParams) (q : V) (keys values : List V) (r : ℕ) : V :=
  fun i => ∑ c in Finset.range (r + 1),
    (Real.exp (scaledScore p keys q (i / p.head_features) c) /
      ∑ x in Finset.range (r + 1), Real.exp (scaledScore p keys q (i / p.head_features) x)) *
      headSlice p.head_features (i / p.head_features) (values.getD c zeroV)
        (i % p.head_features)

theorem idealRow_eq_attnAt (p : AttnParams) (keys values : List V) (ns nd : ℕ) (q : V)
    (d : ℕ) (h : ns - nd + d < ns) :
    idealRow p keys values ns nd q d = idealAttnAt p q keys values (ns - nd + d) := by
  funext i
  unfold idealRow idealWeight idealAttnAt
  rw [filter_range_le ns (ns - nd + d) h]
  rw [show (Finset.range ns) = Finset.range ns from rfl]
  calc ∑ c in Finset.range ns,
        (if c ≤ ns - nd + d then
          Real.exp (scaledScore p keys q (i / p.head_features) c) /
            ∑ x in Finset.range (ns - nd + d + 1),
              Real.exp (scaledScore p keys q (i / p.head_features) x)
        else 0) *
          headSlice p.head_features (i / p.head_features) (values.getD c zeroV)
            (i % p.head_features)
      = ∑ c in Finset.range ns,
        (if c ≤ ns - nd + d then
          Real.exp (scaledScore p keys q (i / p.head_features) c) /
            (∑ x in Finset.range (ns - nd + d + 1),
              Real.exp (scaledScore p keys q (i / p.head_features) x)) *
            headSlice p.head_features (i / p.head_features) (values.getD c zeroV)
              (i % p.head_features)
        else 0) := by
        apply Finset.sum_congr rfl
        intro c _
        by_cases hc : c ≤ ns - nd + d
        · rw [if_pos hc, if_pos hc]
        · rw [if_neg hc, if_neg hc, zero_mul]
    _ = ∑ c in (Finset.range ns).filter (fun y => y ≤ ns - nd + d),
          Real.exp (scaledScore p keys q (i / p.head_features) c) /
            (∑ x in Finset.range (ns - nd + d + 1),
              Real.exp (scaledScore p keys q (i / p.head_features) x)) *
            headSlice p.head_features (i / p.head_features) (values.getD c zeroV)
              (i % p.head_features) := (Finset.sum_filter _ _).symm
    _ = ∑ c in Finset.range (ns - nd + d + 1),
          Real.exp (scaledScore p keys q (i / p.head_features) c) /
            (∑ x in Finset.range (ns - nd + d + 1),
              Real.exp (scaledScore p keys q (i / p.head_features) x)) *
            headSlice p.head_features (i / p.head_features) (values.getD c zeroV)
              (i % p.head_features) := by rw [filter_range_le ns (ns - nd + d) h]

/-- `idealAttnAt` reads only the first `r + 1` keys and values. -/
theorem idealAttnAt_congr (p : AttnParams) (q : V) (keys values keys2 values2 : List V)
    (r : ℕ) (hk : ∀ c ≤ r, keys.getD c zeroV = keys2.getD c zeroV)
    (hv : ∀ c ≤ r, values.getD c zeroV = values2.getD c zeroV) :
    idealAttnAt p q keys values r = idealAttnAt p q keys2 values2 r := by
  funext i
  unfold idealAttnAt
  have hs : ∀ c ≤ r, scaledScore p keys q (i / p.head_features) c
      = scaledScore p keys2 q (i / p.head_features) c := by
    intro c hc
    unfold scaledScore rawScore
    rw [hk c hc]
  have hZ : (∑ x in Finset.range (r + 1),
        Real.exp (scaledScore p keys q (i / p.head_features) x))
      = ∑ x in Finset.range (r + 1),
        Real.exp (scaledScore p keys2 q (i / p.head_features) x) := by
    apply Finset.sum_congr rfl
    intro x hx
    rw [hs x (by have := Finset.mem_range.mp hx; omega)]
  apply Finset.sum_congr rfl
  intro c hc
  have hcr : c ≤ r := by have := Finset.mem_range.mp hc; omega
  rw [hs c hcr, hZ, hv c hcr]

theorem pastKeys_none : pastKeys none = [] := rfl

theorem pastValues_none : pastValues none = [] := rfl

theorem pastKeys_some (c : Cache) : pastKeys (some c) = c.keys := rfl

theorem pastValues_some (c : Cache) : pastValues (some c) = c.values := rfl

theorem take_succ_getD {α : Type _} (l : List α) (t : ℕ) (a : α) (h : t < l.length) :
    l.take (t + 1) = l.take t ++ [l.getD t a] := by
  rw [List.take_succ, List.getElem?_eq_getElem h, List.getD_eq_getElem _ _ h]
  rfl

/-- Row `i` of a cache-free ideal attention call, in normal form. -/
theorem attn_ideal_none_getD (p : AttnParams) (ys : List V) (i : ℕ) (hi : i < ys.length) :
    (attnForwardG idealRow p ys none).1.getD i zeroV =
      conv1dF p.n_state p.c_proj
        (idealAttnAt p ((qkvList p ys).getD i zeroV) (newKeys p ys) (newValues p ys) i) := by
  rw [attnForwardG_fst_getD idealRow p ys none i hi, pastKeys_none, pastValues_none,
    List.nil_append, List.nil_append, newKeys_length,
    idealRow_eq_attnAt p _ _ ys.length ys.length _ i (by omega),
    show ys.length - ys.length + i = i from by omega]

/-- Causality of the ideal attention: running on a prefix produces the
prefix of the outputs and of the cache. -/
theorem attn_ideal_take (p : AttnParams) (ys : List V) (t : ℕ) :
    attnForwardG idealRow p (ys.take t) none =
      ((attnForwardG idealRow p ys none).1.take t,
        cacheTake t (attnForwardG idealRow p ys none).2) := by
  have hL1 : ∀ i < min t ys.length,
      (attnForwardG idealRow p (ys.take t) none).1.getD i zeroV =
        conv1dF p.n_state p.c_proj
          (idealAttnAt p ((qkvList p ys).getD i zeroV) ((newKeys p ys).take t)
            ((newValues p ys).take t) i) := by
    intro i hi
    have hit : i < t := by omega
    have hilen : i < (ys.take t).length := by rw [List.length_take]; omega
    rw [attnForwardG_fst_getD idealRow p (ys.take t) none i hilen, pastKeys_none,
      pastValues_none, List.nil_append, List.nil_append, newKeys_take, newValues_take,
      qkvList_take, getD_take_of_lt (qkvList p ys) t i zeroV hit,
      show ((newKeys p ys).take t).length = min t ys.length from by
        rw [List.length_take, newKeys_length],
      show (ys.take t).length = min t ys.length from List.length_take t ys,
      idealRow_eq_attnAt p _ _ (min t ys.length) (min t ys.length) _ i (by omega),
      show min t ys.length - min t ys.length + i = i from by omega]
  have h1 : (attnForwardG idealRow p (ys.take t) none).1 =
      (attnForwardG idealRow p ys none).1.take t := by
    apply list_ext_getD zeroV
    · rw [attnForwardG_fst_length, List.length_take, List.length_take,
        attnForwardG_fst_length]
    · intro i hi
      rw [attnForwardG_fst_length, List.length_take] at hi
      rw [hL1 i hi, getD_take_of_lt _ t i zeroV (by omega),
        attn_ideal_none_getD p ys i (by omega)]
      rw [idealAttnAt_congr p ((qkvList p ys).getD i zeroV) ((newKeys p ys).take t)
        ((newValues p ys).take t) (newKeys p ys) (newValues p ys) i
        (fun c hc => getD_take_of_lt _ t c zeroV (by omega))
        (fun c hc => getD_take_of_lt _ t c zeroV (by omega))]
  have h2 : (attnForwardG idealRow p (ys.take t) none).2 =
      cacheTake t (attnForwardG idealRow p ys none).2 := by
    rw [attnForwardG_snd, attnForwardG_snd, pastKeys_none, pastValues_none]
    simp only [List.nil_append, cacheTake]
    rw [Cache.mk.injEq]
    exact ⟨newKeys_take p ys t, newValues_take p ys t⟩
  rw [Prod.ext_iff]
  exact ⟨h1, h2⟩

/-- One incremental step of the ideal attention: feeding position `t` with
the cache of the first `t` positions reproduces row `t` of the full call
and extends the cache to `t + 1` positions. -/
theorem attn_ideal_step (p : AttnParams) (ys : List V) (t : ℕ) (ht : t < ys.length) :
    attnForwardG idealRow p [ys.getD t zeroV]
        (some (cacheTake t (attnForwardG idealRow p ys none).2)) =
      ([(attnForwardG idealRow p ys none).1.getD t zeroV],
        cacheTake (t + 1) (attnForwardG idealRow p ys none).2) := by
  have hkeys : pastKeys (some (cacheTake t (attnForwardG idealRow p ys none).2)) ++
      newKeys p [ys.getD t zeroV] = (newKeys p ys).take (t + 1) := by
    rw [pastKeys_some, attnForwardG_snd, pastKeys_none]
    simp only [cacheTake, List.nil_append]
    rw [take_succ_getD (newKeys p ys) t zeroV (by rw [newKeys_length]; omega)]
    congr 1
    rw [newKeys_getD p ys t ht]
    rfl
  have hvalues : pastValues (some (cacheTake t (attnForwardG idealRow p ys none).2)) ++
      newValues p [ys.getD t zeroV] = (newValues p ys).take (t + 1) := by
    rw [pastValues_some, attnForwardG_snd, pastValues_none]
    simp only [cacheTake, List.nil_append]
    rw [take_succ_getD (newValues p ys) t zeroV (by rw [newValues_length]; omega)]
    congr 1
    rw [newValues_getD p ys t ht]
    rfl
  have h2 : (attnForwardG idealRow p [ys.getD t zeroV]
      (some (cacheTake t (attnForwardG idealRow p ys none).2))).2 =
      cacheTake (t + 1) (attnForwardG idealRow p ys none).2 := by
    rw [attnForwardG_snd, Cache.mk.injEq]
    constructor
    · rw [hkeys, attnForwardG_snd, pastKeys_none]
      simp [cacheTake]
    · rw [hvalues, attnForwardG_snd, pastValues_none]
      simp [cacheTake]
  have h1 : (attnForwardG idealRow p [ys.getD t zeroV]
      (some (cacheTake t (attnForwardG idealRow p ys none).2))).1 =
      [(attnForwardG idealRow p ys none).1.getD t zeroV] := by
    apply list_ext_getD zeroV
    · rw [attnForwardG_fst_length]
      rfl
    · intro i hi
      rw [attnForwardG_fst_length] at hi
      have hi0 : i = 0 := by simpa using hi
      subst hi0
      rw [attnForwardG_fst_getD idealRow p [ys.getD t zeroV] _ 0 (by simp), hkeys, hvalues,
        show ((newKeys p ys).take (t + 1)).length = t + 1 from by
          rw [List.length_take, newKeys_length]; omega,
        show ([ys.getD t zeroV] : List V).length = 1 from rfl,
        show (qkvList p [ys.getD t zeroV]).getD 0 zeroV = (qkvList p ys).getD t zeroV from by
          rw [qkvList_getD p ys t ht]; rfl,
        idealRow_eq_attnAt p _ _ (t + 1) 1 _ 0 (by omega),
        show t + 1 - 1 + 0 = t from by omega,
        show ([(attnForwardG idealRow p ys none).1.getD t zeroV].getD 0 zeroV) =
          (attnForwardG idealRow p ys none).1.getD t zeroV from rfl,
        attn_ideal_none_getD p ys t ht]
      rw [idealAttnAt_congr p ((qkvList p ys).getD t zeroV) ((newKeys p ys).take (t + 1))
        ((newValues p ys).take (t + 1)) (newKeys p ys) (newValues p ys) t
        (fun c hc => getD_take_of_lt _ (t + 1) c zeroV (by omega))
        (fun c hc => getD_take_of_lt _ (t + 1) c zeroV (by omega))]
  rw [Prod.ext_iff]
  exact ⟨h1, h2⟩

/-- Causality of one ideal block: running on a prefix produces the prefix
of the outputs and of the cache. -/
theorem block_ideal_take (cfg : Config) (b : BlockParams) (xs : List V) (t : ℕ) :
    blockForwardG idealRow cfg b (xs.take t) none =
      ((blockForwardG idealRow cfg b xs none).1.take t,
        cacheTake t (blockForwardG idealRow cfg b xs none).2) := by
  have hattnlen : (attnForwardG idealRow b.attn (xs.map (lnForward cfg.n_embd b.ln_1))
      none).1.length = xs.length := by
    rw [attnForwardG_fst_length, List.length_map]
  have h2 : (blockForwardG idealRow cfg b (xs.take t) none).2 =
      cacheTake t (blockForwardG idealRow cfg b xs none).2 := by
    show (attnForwardG idealRow b.attn ((xs.take t).map (lnForward cfg.n_embd b.ln_1))
        none).2 = cacheTake t (attnForwardG idealRow b.attn
          (xs.map (lnForward cfg.n_embd b.ln_1)) none).2
    rw [List.map_take, attn_ideal_take b.attn (xs.map (lnForward cfg.n_embd b.ln_1)) t]
  have h1 : (blockForwardG idealRow cfg b (xs.take t) none).1 =
      (blockForwardG idealRow cfg b xs none).1.take t := by
    apply list_ext_getD zeroV
    · rw [blockForwardG_fst_length, List.length_take, List.length_take,
        blockForwardG_fst_length]
    · intro i hi
      rw [blockForwardG_fst_length, List.length_take] at hi
      have hit : i < t := by omega
      have hiL : i < xs.length := by omega
      have hAt : (attnForwardG idealRow b.attn
          ((xs.take t).map (lnForward cfg.n_embd b.ln_1)) none).1.getD i zeroV
          = (attnForwardG idealRow b.attn
            (xs.map (lnForward cfg.n_embd b.ln_1)) none).1.getD i zeroV := by
        rw [List.map_take, attn_ideal_take b.attn (xs.map (lnForward cfg.n_embd b.ln_1)) t]
        exact getD_take_of_lt _ t i zeroV hit
      rw [blockForwardG_getD idealRow cfg b (xs.take t) none i
          (by rw [List.length_take]; omega),
        getD_take_of_lt xs t i zeroV hit, hAt,
        getD_take_of_lt ((blockForwardG idealRow cfg b xs none).1) t i zeroV hit,
        blockForwardG_getD idealRow cfg b xs none i hiL]
  rw [Prod.ext_iff]
  exact ⟨h1, h2⟩

/-- One incremental step of an ideal block. -/
theorem block_ideal_step (cfg : Config) (b : BlockParams) (xs : List V) (t : ℕ)
    (ht : t < xs.length) :
    blockForwardG idealRow cfg b [xs.getD t zeroV]
        (some (cacheTake t (blockForwardG idealRow cfg b xs none).2)) =
      ([(blockForwardG idealRow cfg b xs none).1.getD t zeroV],
        cacheTake (t + 1) (blockForwardG idealRow cfg b xs none).2) := by
  have htm : t < (xs.map (lnForward cfg.n_embd b.ln_1)).length := by
    rw [List.length_map]; exact ht
  have hsingle : [xs.getD t zeroV].map (lnForward cfg.n_embd b.ln_1) =
      [(xs.map (lnForward cfg.n_embd b.ln_1)).getD t zeroV] := by
    rw [getD_map_of_lt (lnForward cfg.n_embd b.ln_1) xs t zeroV zeroV ht]
    rfl
  have h2 : (blockForwardG idealRow cfg b [xs.getD t zeroV]
      (some (cacheTake t (blockForwardG idealRow cfg b xs none).2))).2 =
      cacheTake (t + 1) (blockForwardG idealRow cfg b xs none).2 := by
    show (attnForwardG idealRow b.attn ([xs.getD t zeroV].map (lnForward cfg.n_embd b.ln_1))
        (some (cacheTake t (attnForwardG idealRow b.attn
          (xs.map (lnForward cfg.n_embd b.ln_1)) none).2))).2 =
      cacheTake (t + 1) (attnForwardG idealRow b.attn
        (xs.map (lnForward cfg.n_embd b.ln_1)) none).2
    rw [hsingle, attn_ideal_step b.attn (xs.map (lnForward cfg.n_embd b.ln_1)) t htm]
  have h1 : (blockForwardG idealRow cfg b [xs.getD t zeroV]
      (some (cacheTake t (blockForwardG idealRow cfg b xs none).2))).1 =
      [(blockForwardG idealRow cfg b xs none).1.getD t zeroV] := by
    apply list_ext_getD zeroV
    · rw [blockForwardG_fst_length]
      rfl
    · intro i hi
      rw [blockForwardG_fst_length] at hi
      have hi0 : i = 0 := by simpa using hi
      subst hi0
      rw [blockForwardG_getD idealRow cfg b [xs.getD t zeroV] _ 0 (by simp),
        show ([(blockForwardG idealRow cfg b xs none).1.getD t zeroV].getD 0 zeroV)
          = (blockForwardG idealRow cfg b xs none).1.getD t zeroV from rfl,
        blockForwardG_getD idealRow cfg b xs none t ht,
        show (blockForwardG idealRow cfg b xs none).2
          = (attnForwardG idealRow b.attn (xs.map (lnForward cfg.n_embd b.ln_1)) none).2
          from rfl,
        hsingle, attn_ideal_step b.attn (xs.map (lnForward cfg.n_embd b.ln_1)) t htm]
      rfl
  rw [Prod.ext_iff]
  exact ⟨h1, h2⟩

theorem runBlocksG_nil (row : RowFn) (cfg : Config) (ps : List (Option Cache))
    (hs : List V) : runBlocksG row cfg [] ps hs = (hs, []) := rfl

theorem runBlocksG_cons_fst (row : RowFn) (cfg : Config) (b : BlockParams)
    (bs : List BlockParams) (pl : Option Cache) (ps : List (Option Cache)) (hs : List V) :
    (runBlocksG row cfg (b :: bs) (pl :: ps) hs).1 =
      (runBlocksG row cfg bs ps (blockForwardG row cfg b hs pl).1).1 := rfl

theorem runBlocksG_cons_snd (row : RowFn) (cfg : Config) (b : BlockParams)
    (bs : List BlockParams) (pl : Option Cache) (ps : List (Option Cache)) (hs : List V) :
    (runBlocksG row cfg (b :: bs) (pl :: ps) hs).2 =
      (blockForwardG row cfg b hs pl).2 ::
        (runBlocksG row cfg bs ps (blockForwardG row cfg b hs pl).1).2 := rfl

/-- Causality of the ideal block stack: running on a prefix produces the
prefix of the hidden states and the per-layer prefixes of the caches. -/
theorem run_ideal_take (cfg : Config) (bs : List BlockParams) (xs : List V) (t : ℕ) :
    runBlocksG idealRow cfg bs (List.replicate bs.length none) (xs.take t) =
      ((runBlocksG idealRow cfg bs (List.replicate bs.length none) xs).1.take t,
        (runBlocksG idealRow cfg bs (List.replicate bs.length none) xs).2.map
          (cacheTake t)) := by
  induction bs generalizing xs with
  | nil => simp [runBlocksG_nil]
  | cons b bs ih =>
    have hb := block_ideal_take cfg b xs t
    have hb1 : (blockForwardG idealRow cfg b (xs.take t) none).1 =
        (blockForwardG idealRow cfg b xs none).1.take t := by rw [hb]
    have hb2 : (blockForwardG idealRow cfg b (xs.take t) none).2 =
        cacheTake t (blockForwardG idealRow cfg b xs none).2 := by rw [hb]
    have hih := ih (blockForwardG idealRow cfg b xs none).1
    rw [Prod.ext_iff]
    constructor
    · rw [List.length_cons, List.replicate_succ, runBlocksG_cons_fst, hb1, runBlocksG_cons_fst]
      rw [hih]
    · rw [List.length_cons, List.replicate_succ, runBlocksG_cons_snd, hb1, hb2,
        runBlocksG_cons_snd]
      simp only [List.map_cons]
      rw [hih]

/-- One incremental step of the ideal block stack, with the per-layer
prefix caches of the full run supplied as `past`. -/
theorem run_ideal_step (cfg : Config) (bs : List BlockParams) (xs : List V) (t : ℕ)
    (ht : t < xs.length) :
    runBlocksG idealRow cfg bs
        ((runBlocksG idealRow cfg bs (List.replicate bs.length none) xs).2.map
          (fun pc => some (cacheTake t pc)))
        [xs.getD t zeroV] =
      ([(runBlocksG idealRow cfg bs (List.replicate bs.length none) xs).1.getD t zeroV],
        (runBlocksG idealRow cfg bs (List.replicate bs.length none) xs).2.map
          (cacheTake (t + 1))) := by
  induction bs generalizing xs t with
  | nil => simp [runBlocksG_nil]
  | cons b bs ih =>
    have ht1 : t < (blockForwardG idealRow cfg b xs none).1.length := by
      rw [blockForwardG_fst_length]
      exact ht
    have hb := block_ideal_step cfg b xs t ht
    have hb1 : (blockForwardG idealRow cfg b [xs.getD t zeroV]
        (some (cacheTake t (blockForwardG idealRow cfg b xs none).2))).1 =
        [(blockForwardG idealRow cfg b xs none).1.getD t zeroV] := by rw [hb]
    have hb2 : (blockForwardG idealRow cfg b [xs.getD t zeroV]
        (some (cacheTake t (blockForwardG idealRow cfg b xs none).2))).2 =
        cacheTake (t + 1) (blockForwardG idealRow cfg b xs none).2 := by rw [hb]
    have hih := ih (blockForwardG idealRow cfg b xs none).1 t ht1
    rw [Prod.ext_iff]
    constructor
    · rw [List.length_cons, List.replicate_succ, runBlocksG_cons_snd]
      simp only [List.map_cons]
      rw [runBlocksG_cons_fst, hb1, hih, runBlocksG_cons_fst]
    · rw [List.length_cons, List.replicate_succ, runBlocksG_cons_snd]
      simp only [List.map_cons]
      rw [runBlocksG_cons_snd, hb1, hb2, hih]

theorem embedSum_none_length (m : ModelParams) (ids pos : List ℕ) :
    (embedSum m ids pos none).length = min ids.length pos.length := by
  simp [embedSum, List.length_zipWith]

theorem embedSum_none_getD (m : ModelParams) (ids pos : List ℕ) (p : ℕ)
    (h1 : p < ids.length) (h2 : p < pos.length) :
    (embedSum m ids pos none).getD p zeroV =
      vadd (vadd (m.wte (ids.getD p 0)) (m.wpe (pos.getD p 0))) zeroV := by
  show (List.zipWith vadd (List.zipWith vadd (ids.map m.wte) (pos.map m.wpe))
      (List.replicate ids.length zeroV)).getD p zeroV = _
  have e1 : (List.zipWith vadd (List.zipWith vadd (ids.map m.wte) (pos.map m.wpe))
      (List.replicate ids.length zeroV)).getD p zeroV
      = vadd ((List.zipWith vadd (ids.map m.wte) (pos.map m.wpe)).getD p zeroV)
        ((List.replicate ids.length zeroV).getD p zeroV) :=
    getD_zipWith_of_lt vadd (List.zipWith vadd (ids.map m.wte) (pos.map m.wpe))
      (List.replicate ids.length zeroV) p zeroV zeroV zeroV
      (by rw [List.length_zipWith]; simp; omega) (by simpa using h1)
  have e2 : (List.zipWith vadd (ids.map m.wte) (pos.map m.wpe)).getD p zeroV
      = vadd ((ids.map m.wte).getD p zeroV) ((pos.map m.wpe).getD p zeroV) :=
    getD_zipWith_of_lt vadd (ids.map m.wte) (pos.map m.wpe) p zeroV zeroV zeroV
      (by simpa using h1) (by simpa using h2)
  have e3 : (List.replicate ids.length zeroV).getD p zeroV = zeroV := by
    rw [List.getD_eq_getElem _ _ (by simpa using h1), List.getElem_replicate]
  rw [e1, e2, e3, getD_map_of_lt m.wte ids p 0 zeroV h1,
    getD_map_of_lt m.wpe pos p 0 zeroV h2]

theorem attnForwardG_none_keys_length (row : RowFn) (p : AttnParams) (ys : List V) :
    ((attnForwardG row p ys none).2).keys.length = ys.length := by
  rw [attnForwardG_snd, pastKeys_none]
  simp [newKeys_length]

theorem blockForwardG_none_keys_length (row : RowFn) (cfg : Config) (b : BlockParams)
    (hs : List V) : ((blockForwardG row cfg b hs none).2).keys.length = hs.length := by
  show ((attnForwardG row b.attn (hs.map (lnForward cfg.n_embd b.ln_1)) none).2).keys.length = _
  rw [attnForwardG_none_keys_length, List.length_map]

theorem run_presents_keys_length (row : RowFn) (cfg : Config) (bs : List BlockParams)
    (hs : List V) :
    ∀ pc ∈ (runBlocksG row cfg bs (List.replicate bs.length none) hs).2,
      pc.keys.length = hs.length := by
  induction bs generalizing hs with
  | nil =>
    intro pc hpc
    simp [runBlocksG_nil] at hpc
  | cons b bs ih =>
    intro pc hpc
    rw [List.length_cons, List.replicate_succ, runBlocksG_cons_snd] at hpc
    rcases List.mem_cons.mp hpc with h | h
    · rw [h, blockForwardG_none_keys_length]
    · have := ih (blockForwardG row cfg b hs none).1 pc h
      rw [this, blockForwardG_fst_length]

theorem run_presents_length (row : RowFn) (cfg : Config) (bs : List BlockParams)
    (hs : List V) :
    (runBlocksG row cfg bs (List.replicate bs.length none) hs).2.length = bs.length := by
  rw [runBlocksG_snd_length]
  simp

theorem gpt2ForwardG_eq_none (row : RowFn) (cfg : Config) (m : ModelParams)
    (ids : List ℕ) (tt : Option (List ℕ)) :
    gpt2ForwardG row cfg m ids none tt none =
      ((runBlocksG row cfg m.h (List.replicate m.h.length none)
          (embedSum m ids (List.range' 0 ids.length) tt)).1.map
            (lnForward cfg.n_embd m.ln_f),
        (runBlocksG row cfg m.h (List.replicate m.h.length none)
          (embedSum m ids (List.range' 0 ids.length) tt)).2) := rfl

theorem gpt2ForwardG_eq_some (row : RowFn) (cfg : Config) (m : ModelParams)
    (ids : List ℕ) (tt : Option (List ℕ)) (ps : List Cache) :
    gpt2ForwardG row cfg m ids none tt (some ps) =
      ((runBlocksG row cfg m.h (ps.map some)
          (embedSum m ids
            (List.range' ((ps.getD 0 emptyCache).keys).length ids.length) tt)).1.map
            (lnForward cfg.n_embd m.ln_f),
        (runBlocksG row cfg m.h (ps.map some)
          (embedSum m ids
            (List.range' ((ps.getD 0 emptyCache).keys).length ids.length) tt)).2) := rfl

/-- One incremental step of the ideal full model: feeding token `t` with
the per-layer prefix caches of the full run reproduces position `t` of the
full run's hidden states and extends every cache to `t + 1` positions. -/
theorem model_ideal_step (cfg : Config) (m : ModelParams) (tokens : List ℕ) (t : ℕ)
    (ht : t < tokens.length) (hh : m.h ≠ []) :
    gpt2ForwardG idealRow cfg m [tokens.getD t 0] none none
        (some ((gpt2ForwardG idealRow cfg m tokens none none none).2.map (cacheTake t))) =
      ([(gpt2ForwardG idealRow cfg m tokens none none none).1.getD t zeroV],
        (gpt2ForwardG idealRow cfg m tokens none none none).2.map (cacheTake (t + 1))) := by
  have hge : 0 < m.h.length := List.length_pos.mpr hh
  have hrange : (List.range' 0 tokens.length).length = tokens.length := by simp
  have hh0len : (embedSum m tokens (List.range' 0 tokens.length) none).length
      = tokens.length := by
    rw [embedSum_none_length, hrange, min_self]
  have hR2len : (runBlocksG idealRow cfg m.h (List.replicate m.h.length none)
      (embedSum m tokens (List.range' 0 tokens.length) none)).2.length = m.h.length :=
    run_presents_length idealRow cfg m.h _
  have hF2 : (gpt2ForwardG idealRow cfg m tokens none none none).2
      = (runBlocksG idealRow cfg m.h (List.replicate m.h.length none)
        (embedSum m tokens (List.range' 0 tokens.length) none)).2 := by
    rw [gpt2ForwardG_eq_none]
  have hkeys0 : ((runBlocksG idealRow cfg m.h (List.replicate m.h.length none)
      (embedSum m tokens (List.range' 0 tokens.length) none)).2.getD 0
      emptyCache).keys.length = tokens.length := by
    have hmem : (runBlocksG idealRow cfg m.h (List.replicate m.h.length none)
        (embedSum m tokens (List.range' 0 tokens.length) none)).2.getD 0 emptyCache ∈
        (runBlocksG idealRow cfg m.h (List.replicate m.h.length none)
          (embedSum m tokens (List.range' 0 tokens.length) none)).2 := by
      rw [List.getD_eq_getElem _ _ (by omega)]
      exact List.getElem_mem _
    rw [run_presents_keys_length idealRow cfg m.h _ _ hmem, hh0len]
  have hpl : ((((gpt2ForwardG idealRow cfg m tokens none none none).2.map
      (cacheTake t)).getD 0 emptyCache).keys).length = t := by
    rw [hF2, getD_map_of_lt (cacheTake t) _ 0 emptyCache emptyCache (by omega)]
    simp only [cacheTake]
    rw [List.length_take, hkeys0]
    omega
  have hembed : embedSum m [tokens.getD t 0] (List.range' t 1) none
      = [(embedSum m tokens (List.range' 0 tokens.length) none).getD t zeroV] := by
    rw [embedSum_none_getD m tokens (List.range' 0 tokens.length) t ht (by omega)]
    have hpt : (List.range' 0 tokens.length).getD t 0 = t := by
      rw [List.getD_eq_getElem _ _ (by omega), List.getElem_range']
      omega
    rw [hpt, List.range'_one]
    rfl
  have hmaps : ((gpt2ForwardG idealRow cfg m tokens none none none).2.map
      (cacheTake t)).map some
      = (runBlocksG idealRow cfg m.h (List.replicate m.h.length none)
        (embedSum m tokens (List.range' 0 tokens.length) none)).2.map
          (fun pc => some (cacheTake t pc)) := by
    rw [hF2, List.map_map]
    rfl
  have hstep := run_ideal_step cfg m.h
    (embedSum m tokens (List.range' 0 tokens.length) none) t (by omega)
  have hstep1 : (runBlocksG idealRow cfg m.h
      ((runBlocksG idealRow cfg m.h (List.replicate m.h.length none)
        (embedSum m tokens (List.range' 0 tokens.length) none)).2.map
          (fun pc => some (cacheTake t pc)))
      [(embedSum m tokens (List.range' 0 tokens.length) none).getD t zeroV]).1
      = [(runBlocksG idealRow cfg m.h (List.replicate m.h.length none)
        (embedSum m tokens (List.range' 0 tokens.length) none)).1.getD t zeroV] := by
    rw [hstep]
  have hstep2 : (runBlocksG idealRow cfg m.h
      ((runBlocksG idealRow cfg m.h (List.replicate m.h.length none)
        (embedSum m tokens (List.range' 0 tokens.length) none)).2.map
          (fun pc => some (cacheTake t pc)))
      [(embedSum m tokens (List.range' 0 tokens.length) none).getD t zeroV]).2
      = (runBlocksG idealRow cfg m.h (List.replicate m.h.length none)
        (embedSum m tokens (List.range' 0 tokens.length) none)).2.map
          (cacheTake (t + 1)) := by
    rw [hstep]
  rw [Prod.ext_iff]
  constructor
  · rw [gpt2ForwardG_eq_some, hpl, List.length_singleton, hembed, hmaps, hstep1,
      gpt2ForwardG_eq_none]
    show [lnForward cfg.n_embd m.ln_f ((runBlocksG idealRow cfg m.h
      (List.replicate m.h.length none)
      (embedSum m tokens (List.range' 0 tokens.length) none)).1.getD t zeroV)] = _
    rw [getD_map_of_lt (lnForward cfg.n_embd m.ln_f) _ t zeroV zeroV
      (by rw [runBlocksG_fst_length, hh0len]; omega)]
  · rw [gpt2ForwardG_eq_some, hpl, List.length_singleton, hembed, hmaps, hstep2,
      gpt2ForwardG_eq_none]

theorem incrRunG_nil (row : RowFn) (cfg : Config) (m : ModelParams)
    (past : Option (List Cache)) : incrRunG row cfg m past [] = [] := rfl

theorem incrRunG_cons (row : RowFn) (cfg : Config) (m : ModelParams)
    (past : Option (List Cache)) (tk : ℕ) (rest : List ℕ) :
    incrRunG row cfg m past (tk :: rest) =
      (gpt2ForwardG row cfg m [tk] none none past).1.getD 0 zeroV ::
        incrRunG row cfg m (some (gpt2ForwardG row cfg m [tk] none none past).2) rest := rfl

theorem getD_replicate_self {α : Type _} (n i : ℕ) (a : α) :
    (List.replicate n a).getD i a = a := by
  induction n generalizing i with
  | zero => rfl
  | succ n ih =>
    cases i with
    | zero => rfl
    | succ i => exact ih i

theorem block_empty_past (row : RowFn) (cfg : Config) (b : BlockParams) (xs : List V) :
    blockForwardG row cfg b xs (some emptyCache) = blockForwardG row cfg b xs none := rfl

theorem run_empty_caches (row : RowFn) (cfg : Config) (bs : List BlockParams) (n : ℕ)
    (hs : List V) :
    runBlocksG row cfg bs (List.replicate n (some emptyCache)) hs =
      runBlocksG row cfg bs (List.replicate n none) hs := by
  induction bs generalizing n hs with
  | nil => rfl
  | cons b bs ih =>
    cases n with
    | zero => rfl
    | succ n =>
      rw [List.replicate_succ, List.replicate_succ, Prod.ext_iff]
      constructor
      · rw [runBlocksG_cons_fst, runBlocksG_cons_fst, block_empty_past, ih]
      · rw [runBlocksG_cons_snd, runBlocksG_cons_snd, block_empty_past, ih]

theorem gpt_empty_past (row : RowFn) (cfg : Config) (m : ModelParams) (ids : List ℕ)
    (tt : Option (List ℕ)) (n : ℕ) (hn : n = m.h.length) :
    gpt2ForwardG row cfg m ids none tt (some (List.replicate n emptyCache)) =
      gpt2ForwardG row cfg m ids none tt none := by
  subst hn
  rw [gpt2ForwardG_eq_some, gpt2ForwardG_eq_none, getD_replicate_self,
    show (emptyCache.keys).length = 0 from rfl, List.map_replicate, run_empty_caches]

theorem incr_empty_start (row : RowFn) (cfg : Config) (m : ModelParams)
    (tokens : List ℕ) (n : ℕ) (hn : n = m.h.length) :
    incrRunG row cfg m (some (List.replicate n emptyCache)) tokens =
      incrRunG row cfg m none tokens := by
  cases tokens with
  | nil => rfl
  | cons tk rest =>
    rw [incrRunG_cons, incrRunG_cons, gpt_empty_past row cfg m [tk] none n hn]

theorem gpt_none_fst_length (row : RowFn) (cfg : Config) (m : ModelParams)
    (tokens : List ℕ) :
    (gpt2ForwardG row cfg m tokens none none none).1.length = tokens.length := by
  rw [gpt2ForwardG_eq_none]
  show ((runBlocksG row cfg m.h (List.replicate m.h.length none)
    (embedSum m tokens (List.range' 0 tokens.length) none)).1.map
      (lnForward cfg.n_embd m.ln_f)).length = _
  rw [List.length_map, runBlocksG_fst_length, embedSum_none_length]
  simp

theorem gpt_none_snd_length (row : RowFn) (cfg : Config) (m : ModelParams)
    (tokens : List ℕ) :
    (gpt2ForwardG row cfg m tokens none none none).2.length = m.h.length := by
  rw [gpt2ForwardG_eq_none]
  exact run_presents_length row cfg m.h _

/-- Ideal incremental decoding from step `t` on: with the per-layer prefix
caches of the full run, the remaining incremental steps reproduce the
remaining full-run hidden states. -/
theorem incr_ideal_from (cfg : Config) (m : ModelParams) (tokens : List ℕ)
    (hh : m.h ≠ []) :
    ∀ (rest : List ℕ) (t : ℕ), tokens.drop t = rest →
      incrRunG idealRow cfg m
          (some ((gpt2ForwardG idealRow cfg m tokens none none none).2.map (cacheTake t)))
          rest
        = (gpt2ForwardG idealRow cfg m tokens none none none).1.drop t := by
  intro rest
  induction rest with
  | nil =>
    intro t hdrop
    have hlen : tokens.length ≤ t := List.drop_eq_nil_iff.mp hdrop
    rw [incrRunG_nil]
    symm
    apply List.drop_eq_nil_of_le
    rw [gpt_none_fst_length]
    exact hlen
  | cons tk rest ih =>
    intro t hdrop
    have ht : t < tokens.length := by
      by_contra hcon
      push_neg at hcon
      rw [List.drop_eq_nil_of_le hcon] at hdrop
      simp at hdrop
    have htk : tokens.getD t 0 = tk := by
      have h0 : (tokens.drop t).getD 0 0 = tk := by rw [hdrop]; rfl
      rw [List.getD_eq_getElem _ _ (by rw [List.length_drop]; omega),
        List.getElem_drop] at h0
      rw [List.getD_eq_getElem _ _ ht]
      simpa using h0
    have hrest : tokens.drop (t + 1) = rest := by
      rw [← List.tail_drop, hdrop]
      rfl
    rw [incrRunG_cons, ← htk, model_ideal_step cfg m tokens t ht hh]
    show (gpt2ForwardG idealRow cfg m tokens none none none).1.getD t zeroV ::
        incrRunG idealRow cfg m
          (some ((gpt2ForwardG idealRow cfg m tokens none none none).2.map
            (cacheTake (t + 1)))) rest
      = (gpt2ForwardG idealRow cfg m tokens none none none).1.drop t
    have hexp : (gpt2ForwardG idealRow cfg m tokens none none none).1.drop t
        = (gpt2ForwardG idealRow cfg m tokens none none none).1.getD t zeroV
          :: (gpt2ForwardG idealRow cfg m tokens none none none).1.drop (t + 1) := by
      rw [List.getD_eq_getElem _ _ (by rw [gpt_none_fst_length]; exact ht)]
      exact List.drop_eq_getElem_cons (by rw [gpt_none_fst_length]; exact ht)
    rw [ih (t + 1) hrest, hexp]

/-- C1 amended.  Under the idealised exact-zero causal mask that the spec
describes (`idealRow` / `idealGpt2Forward`; every other component is the
source one), incremental decoding is *exactly* consistent with the full
run: for every model with at least one layer, every token sequence and
every prefix position `k`, running the stack once on the full sequence
yields at position `k` the very same hidden state as running token by
token, passing the returned per-layer cache back in on each call.  (For the
source's `-1e10` soft mask this holds only up to residual softmax mass of
order `exp (-1e10)`; see the counterexample.) -/
theorem c1_incremental_consistency_ideal (cfg : Config) (m : ModelParams)
    (tokens : List ℕ) (k : ℕ) (hh : m.h ≠ []) (hk : k < tokens.length) :
    (incrRunG idealRow cfg m none tokens).getD k zeroV =
      (idealGpt2Forward cfg m tokens none none none).1.getD k zeroV := by
  have hstart : incrRunG idealRow cfg m none tokens
      = (gpt2ForwardG idealRow cfg m tokens none none none).1 := by
    have h0 := incr_ideal_from cfg m tokens hh tokens 0 (by rw [List.drop_zero])
    rw [List.drop_zero] at h0
    have hmap0 : (gpt2ForwardG idealRow cfg m tokens none none none).2.map (cacheTake 0)
        = List.replicate m.h.length emptyCache := by
      have hc : (gpt2ForwardG idealRow cfg m tokens none none none).2.map (cacheTake 0)
          = (gpt2ForwardG idealRow cfg m tokens none none none).2.map
            (fun _ => emptyCache) := by
        apply List.map_congr_left
        intro a _
        rfl
      rw [hc, List.map_const', gpt_none_snd_length]
    rw [hmap0, incr_empty_start idealRow cfg m tokens m.h.length rfl] at h0
    exact h0
  rw [hstart]
  rfl

/-- C1 amended, witness: a one-layer, one-head, width-1 model with zero
weights, token sequence `[0, 0]`, prefix position `k = 0`. -/
theorem c1_incremental_consistency_ideal_witness :
    (([⟨mkLNorm 1 0, ⟨cZero, cZero, 1, 1, 1, 2, true⟩, mkLNorm 1 0, ⟨cZero, cZero⟩⟩] :
        List BlockParams) ≠ [] ∧ (0 : ℕ) < [0, 0].length) ∧
    (incrRunG idealRow ⟨1, 2, 2, 1, 1, 1, 0⟩
        ⟨fun _ => zeroV, fun _ => zeroV,
         [⟨mkLNorm 1 0, ⟨cZero, cZero, 1, 1, 1, 2, true⟩, mkLNorm 1 0, ⟨cZero, cZero⟩⟩],
         mkLNorm 1 0⟩ none [0, 0]).getD 0 zeroV =
      (idealGpt2Forward ⟨1, 2, 2, 1, 1, 1, 0⟩
        ⟨fun _ => zeroV, fun _ => zeroV,
         [⟨mkLNorm 1 0, ⟨cZero, cZero, 1, 1, 1, 2, true⟩, mkLNorm 1 0, ⟨cZero, cZero⟩⟩],
         mkLNorm 1 0⟩ [0, 0] none none none).1.getD 0 zeroV :=
  ⟨⟨by simp, by simp⟩,
   c1_incremental_consistency_ideal ⟨1, 2, 2, 1, 1, 1, 0⟩
     ⟨fun _ => zeroV, fun _ => zeroV,
      [⟨mkLNorm 1 0, ⟨cZero, cZero, 1, 1, 1, 2, true⟩, mkLNorm 1 0, ⟨cZero, cZero⟩⟩],
      mkLNorm 1 0⟩ [0, 0] 0 (by simp) (by simp)⟩

/-! ## C1 counterexample: concrete model where the soft mask breaks exact
consistency -/

/-- Fused QKV weight mapping the input identically onto the value third and
zeroing query and key (`weight i j = 1` iff `j = i + 4`). -/
noncomputable def CA : Conv1D := ⟨fun i j => if j = i + 4 then 1 else 0, zeroV⟩

/-- Identity output projection. -/
noncomputable def CP : Conv1D := ⟨fun i j => if i = j then 1 else 0, zeroV⟩

/-- One attention head of width 2 over embedding width 2, context 2,
scaling enabled (as `GPT2Model` constructs it). -/
noncomputable def apC : AttnParams := ⟨CA, CP, 1, 2, 2, 2, true⟩

/-- The concrete block: layer norms with `eps = 3/4` and a zero MLP. -/
noncomputable def blkC : BlockParams := ⟨mkLNorm 2 (3/4), apC, mkLNorm 2 (3/4), ⟨cZero, cZero⟩⟩

/-- The concrete model: zero token embeddings, one-hot position embeddings,
a single layer. -/
noncomputable def mC : ModelParams := ⟨fun _ => zeroV, fun p i => if p = i then 1 else 0, [blkC],
  mkLNorm 2 (3/4)⟩

/-- The concrete configuration (`n_embd = 2`, one head, one layer,
`layer_norm_epsilon = 3/4`). -/
noncomputable def cfgC : Config := ⟨1, 2, 2, 2, 1, 1, 3/4⟩

theorem mlpC_zero (v : V) (j : ℕ) : mlpForward cfgC ⟨cZero, cZero⟩ v j = 0 := by
  simp [mlpForward, conv1dF, cZero, zeroV]

theorem cp_eval0 (w : V) : conv1dF 2 CP w 0 = w 0 := by
  simp [conv1dF, CP, Finset.sum_range_succ, Finset.sum_range_one, zeroV]

theorem cp_eval1 (w : V) : conv1dF 2 CP w 1 = w 1 := by
  simp [conv1dF, CP, Finset.sum_range_succ, Finset.sum_range_one, zeroV]

/-- Width-2 layer norm with `eps = 3/4`, coordinate 0. -/
theorem lnMean2 (x : V) : lnMean 2 x = (x 0 + x 1) / 2 := by
  unfold lnMean
  rw [Finset.sum_range_succ, Finset.sum_range_one]
  norm_num

theorem lnVar2 (x : V) : lnVar 2 x = ((x 0 - x 1) / 2) ^ 2 := by
  unfold lnVar
  rw [Finset.sum_range_succ, Finset.sum_range_one, lnMean2]
  push_cast
  ring

theorem ln34_0 (x : V) : lnForward 2 (mkLNorm 2 (3/4)) x 0 =
    ((x 0 - x 1) / 2) / Real.sqrt (((x 0 - x 1) / 2) ^ 2 + 3 / 4) := by
  have h1 : x 0 - (x 0 + x 1) / 2 = (x 0 - x 1) / 2 := by ring
  simp only [lnForward, mkLNorm]
  rw [lnMean2, lnVar2, h1]
  ring

/-- Width-2 layer norm with `eps = 3/4`, coordinate 1. -/
theorem ln34_1 (x : V) : lnForward 2 (mkLNorm 2 (3/4)) x 1 =
    ((x 1 - x 0) / 2) / Real.sqrt (((x 0 - x 1) / 2) ^ 2 + 3 / 4) := by
  have h1 : x 1 - (x 0 + x 1) / 2 = (x 1 - x 0) / 2 := by ring
  simp only [lnForward, mkLNorm]
  rw [lnMean2, lnVar2, h1]
  ring

/-- Strict monotonicity of `u ↦ u / sqrt (u² + 3/4)` on the nonnegative
reals. -/
theorem sqrt_ratio_strictMono (u v : ℝ) (hu : 0 ≤ u) (huv : u < v) :
    u / Real.sqrt (u ^ 2 + 3 / 4) < v / Real.sqrt (v ^ 2 + 3 / 4) := by
  have hv : 0 ≤ v := hu.trans huv.le
  have hsu : 0 < Real.sqrt (u ^ 2 + 3 / 4) := Real.sqrt_pos.mpr (by positivity)
  have hsv : 0 < Real.sqrt (v ^ 2 + 3 / 4) := Real.sqrt_pos.mpr (by positivity)
  rw [div_lt_div_iff₀ hsu hsv]
  have h1 : u * Real.sqrt (v ^ 2 + 3 / 4) = Real.sqrt (u ^ 2 * (v ^ 2 + 3 / 4)) := by
    rw [Real.sqrt_mul (sq_nonneg u), Real.sqrt_sq hu]
  have h2 : v * Real.sqrt (u ^ 2 + 3 / 4) = Real.sqrt (v ^ 2 * (u ^ 2 + 3 / 4)) := by
    rw [Real.sqrt_mul (sq_nonneg v), Real.sqrt_sq hv]
  rw [h1, h2]
  apply Real.sqrt_lt_sqrt (by positivity)
  nlinarith

/-- With `CA`, the query and key thirds of the fused projection are zero. -/
theorem qC_zero (ys : List V) (c : ℕ) (hc : c < ys.length) (f : ℕ) (hf : f < 4) :
    (qkvList apC ys).getD c zeroV f = 0 := by
  rw [qkvList_getD apC ys c hc]
  show conv1dF apC.n_state apC.c_attn (ys.getD c zeroV) f = 0
  have h4 : f ≠ 4 := by omega
  have h5 : f ≠ 5 := by omega
  rw [show apC.n_state = 2 from rfl, show apC.c_attn = CA from rfl]
  simp [conv1dF, CA, zeroV, Finset.sum_range_succ, Finset.sum_range_one, h4, h5]

/-- With `CA`, the value third of the fused projection is the input
itself. -/
theorem vC_eval (ys : List V) (c : ℕ) (hc : c < ys.length) (f : ℕ) (hf : f < 2) :
    (newValues apC ys).getD c zeroV f = ys.getD c zeroV f := by
  rw [newValues_getD apC ys c hc]
  show valPart apC (conv1dF apC.n_state apC.c_attn (ys.getD c zeroV)) f = _
  rw [show apC.n_state = 2 from rfl, show apC.c_attn = CA from rfl]
  interval_cases f
  · simp [valPart, conv1dF, CA, zeroV, Finset.sum_range_succ, Finset.sum_range_one,
      show (2 * apC.n_state : ℕ) = 4 from rfl]
  · simp [valPart, conv1dF, CA, zeroV, Finset.sum_range_succ, Finset.sum_range_one,
      show (2 * apC.n_state : ℕ) = 4 from rfl]

theorem scaledC_zero (keys : List V) (q : V) (hq0 : q 0 = 0) (hq1 : q 1 = 0) (c : ℕ) :
    scaledScore apC keys q 0 c = 0 := by
  have hraw : rawScore apC keys q 0 c = 0 := by
    unfold rawScore dotR headSlice
    rw [show apC.head_features = 2 from rfl, Finset.sum_range_succ, Finset.sum_range_one]
    norm_num [hq0, hq1]
  unfold scaledScore
  rw [hraw]
  simp

theorem biasedC_unmasked (keys : List V) (q : V) (hq0 : q 0 = 0) (hq1 : q 1 = 0)
    (ns nd d c : ℕ) (hb : triBias 2 (ns - nd + d) c = 1) :
    biasedScore apC keys ns nd q 0 d c = 0 := by
  unfold biasedScore
  rw [show apC.n_ctx = 2 from rfl, hb, scaledC_zero keys q hq0 hq1 c]
  ring

theorem biasedC_masked (keys : List V) (q : V) (hq0 : q 0 = 0) (hq1 : q 1 = 0)
    (ns nd d c : ℕ) (hb : triBias 2 (ns - nd + d) c = 0) :
    biasedScore apC keys ns nd q 0 d c = -1e10 := by
  unfold biasedScore
  rw [show apC.n_ctx = 2 from rfl, hb, scaledC_zero keys q hq0 hq1 c]
  ring

theorem attnWeightC_full (keys : List V) (q : V) (hq0 : q 0 = 0) (hq1 : q 1 = 0) :
    attnWeight apC keys 2 2 q 0 0 0 = 1 / (1 + Real.exp (-1e10)) ∧
    attnWeight apC keys 2 2 q 0 0 1 = Real.exp (-1e10) / (1 + Real.exp (-1e10)) := by
  have hb0 : biasedScore apC keys 2 2 q 0 0 0 = 0 :=
    biasedC_unmasked keys q hq0 hq1 2 2 0 0 (by norm_num [triBias])
  have hb1 : biasedScore apC keys 2 2 q 0 0 1 = -1e10 :=
    biasedC_masked keys q hq0 hq1 2 2 0 1 (by norm_num [triBias])
  constructor
  · unfold attnWeight
    rw [Finset.sum_range_succ, Finset.sum_range_one, hb0, hb1, Real.exp_zero]
  · unfold attnWeight
    rw [Finset.sum_range_succ, Finset.sum_range_one, hb0, hb1, Real.exp_zero]

theorem attnWeightC_inc (keys : List V) (q : V) (hq0 : q 0 = 0) (hq1 : q 1 = 0) :
    attnWeight apC keys 1 1 q 0 0 0 = 1 := by
  have hb0 : biasedScore apC keys 1 1 q 0 0 0 = 0 :=
    biasedC_unmasked keys q hq0 hq1 1 1 0 0 (by norm_num [triBias])
  unfold attnWeight
  rw [Finset.sum_range_one, hb0, Real.exp_zero]
  norm_num

theorem sourceRowC_eval (keys values : List V) (ns nd : ℕ) (q : V) (i : ℕ) (hi : i < 2) :
    sourceRow apC keys values ns nd q 0 i =
      ∑ c in Finset.range ns, attnWeight apC keys ns nd q 0 0 c * values.getD c zeroV i := by
  unfold sourceRow headSlice
  rw [show apC.head_features = 2 from rfl]
  have h1 : i / 2 = 0 := Nat.div_eq_of_lt hi
  have h2 : i % 2 = i := Nat.mod_eq_of_lt hi
  simp only [h1, h2, Nat.mul_zero, Nat.zero_add]

theorem attn_fullC (ys : List V) (hlen : ys.length = 2) (i : ℕ) (hi : i < 2) :
    (attnForwardG sourceRow apC ys none).1.getD 0 zeroV i =
      (1 / (1 + Real.exp (-1e10))) * ys.getD 0 zeroV i +
      (Real.exp (-1e10) / (1 + Real.exp (-1e10))) * ys.getD 1 zeroV i := by
  have hq0 : (qkvList apC ys).getD 0 zeroV 0 = 0 := qC_zero ys 0 (by omega) 0 (by omega)
  have hq1 : (qkvList apC ys).getD 0 zeroV 1 = 0 := qC_zero ys 0 (by omega) 1 (by omega)
  have hcall : (attnForwardG sourceRow apC ys none).1.getD 0 zeroV =
      conv1dF apC.n_state apC.c_proj
        (sourceRow apC (pastKeys none ++ newKeys apC ys) (pastValues none ++ newValues apC ys)
          (pastKeys none ++ newKeys apC ys).length ys.length
          ((qkvList apC ys).getD 0 zeroV) 0) :=
    attnForwardG_fst_getD sourceRow apC ys none 0 (by omega)
  rw [hcall, pastKeys_none, pastValues_none, List.nil_append, List.nil_append,
    newKeys_length, hlen, show apC.n_state = 2 from rfl, show apC.c_proj = CP from rfl]
  have hcp : conv1dF 2 CP (sourceRow apC (newKeys apC ys) (newValues apC ys) 2 2
      ((qkvList apC ys).getD 0 zeroV) 0) i =
      sourceRow apC (newKeys apC ys) (newValues apC ys) 2 2
        ((qkvList apC ys).getD 0 zeroV) 0 i := by
    interval_cases i
    · exact cp_eval0 _
    · exact cp_eval1 _
  rw [hcp, sourceRowC_eval (newKeys apC ys) (newValues apC ys) 2 2
      ((qkvList apC ys).getD 0 zeroV) i hi,
    Finset.sum_range_succ, Finset.sum_range_one,
    (attnWeightC_full (newKeys apC ys) ((qkvList apC ys).getD 0 zeroV) hq0 hq1).1,
    (attnWeightC_full (newKeys apC ys) ((qkvList apC ys).getD 0 zeroV) hq0 hq1).2,
    vC_eval ys 0 (by omega) i hi, vC_eval ys 1 (by omega) i hi]

theorem attn_incC (ys : List V) (hlen : ys.length = 1) (i : ℕ) (hi : i < 2) :
    (attnForwardG sourceRow apC ys none).1.getD 0 zeroV i = ys.getD 0 zeroV i := by
  have hq0 : (qkvList apC ys).getD 0 zeroV 0 = 0 := qC_zero ys 0 (by omega) 0 (by omega)
  have hq1 : (qkvList apC ys).getD 0 zeroV 1 = 0 := qC_zero ys 0 (by omega) 1 (by omega)
  have hcall : (attnForwardG sourceRow apC ys none).1.getD 0 zeroV =
      conv1dF apC.n_state apC.c_proj
        (sourceRow apC (pastKeys none ++ newKeys apC ys) (pastValues none ++ newValues apC ys)
          (pastKeys none ++ newKeys apC ys).length ys.length
          ((qkvList apC ys).getD 0 zeroV) 0) :=
    attnForwardG_fst_getD sourceRow apC ys none 0 (by omega)
  rw [hcall, pastKeys_none, pastValues_none, List.nil_append, List.nil_append,
    newKeys_length, hlen, show apC.n_state = 2 from rfl, show apC.c_proj = CP from rfl]
  have hcp : conv1dF 2 CP (sourceRow apC (newKeys apC ys) (newValues apC ys) 1 1
      ((qkvList apC ys).getD 0 zeroV) 0) i =
      sourceRow apC (newKeys apC ys) (newValues apC ys) 1 1
        ((qkvList apC ys).getD 0 zeroV) 0 i := by
    interval_cases i
    · exact cp_eval0 _
    · exact cp_eval1 _
  rw [hcp, sourceRowC_eval (newKeys apC ys) (newValues apC ys) 1 1
      ((qkvList apC ys).getD 0 zeroV) i hi,
    Finset.sum_range_one,
    attnWeightC_inc (newKeys apC ys) ((qkvList apC ys).getD 0 zeroV) hq0 hq1,
    vC_eval ys 0 (by omega) i hi]
  ring

theorem hxF00 : (embedSum mC [0, 0] (List.range' 0 2) none).getD 0 zeroV 0 = 1 := by
  rw [embedSum_none_getD mC [0, 0] (List.range' 0 2) 0 (by simp) (by simp)]
  simp [mC, vadd, zeroV, List.range']

theorem hxF01 : (embedSum mC [0, 0] (List.range' 0 2) none).getD 0 zeroV 1 = 0 := by
  rw [embedSum_none_getD mC [0, 0] (List.range' 0 2) 0 (by simp) (by simp)]
  simp [mC, vadd, zeroV, List.range']

theorem hxF10 : (embedSum mC [0, 0] (List.range' 0 2) none).getD 1 zeroV 0 = 0 := by
  rw [embedSum_none_getD mC [0, 0] (List.range' 0 2) 1 (by simp) (by simp)]
  simp [mC, vadd, zeroV, List.range']

theorem hxF11 : (embedSum mC [0, 0] (List.range' 0 2) none).getD 1 zeroV 1 = 1 := by
  rw [embedSum_none_getD mC [0, 0] (List.range' 0 2) 1 (by simp) (by simp)]
  simp [mC, vadd, zeroV, List.range']

theorem hxI00 : (embedSum mC [0] (List.range' 0 1) none).getD 0 zeroV 0 = 1 := by
  rw [embedSum_none_getD mC [0] (List.range' 0 1) 0 (by simp) (by simp)]
  simp [mC, vadd, zeroV, List.range']

theorem hxI01 : (embedSum mC [0] (List.range' 0 1) none).getD 0 zeroV 1 = 0 := by
  rw [embedSum_none_getD mC [0] (List.range' 0 1) 0 (by simp) (by simp)]
  simp [mC, vadd, zeroV, List.range']

theorem sqrt_quarter_plus : Real.sqrt (((1 : ℝ) / 2) ^ 2 + 3 / 4) = 1 := by
  rw [show ((1 : ℝ) / 2) ^ 2 + 3 / 4 = 1 by norm_num, Real.sqrt_one]

theorem hlF00 : ((embedSum mC [0, 0] (List.range' 0 2) none).map
    (lnForward 2 (mkLNorm 2 (3/4)))).getD 0 zeroV 0 = 1 / 2 := by
  rw [getD_map_of_lt (lnForward 2 (mkLNorm 2 (3/4))) _ 0 zeroV zeroV
      (by rw [embedSum_none_length]; simp),
    ln34_0, hxF00, hxF01]
  rw [show ((1 : ℝ) - 0) / 2 = 1 / 2 by norm_num, sqrt_quarter_plus]
  norm_num

theorem hlF01 : ((embedSum mC [0, 0] (List.range' 0 2) none).map
    (lnForward 2 (mkLNorm 2 (3/4)))).getD 0 zeroV 1 = -(1 / 2) := by
  rw [getD_map_of_lt (lnForward 2 (mkLNorm 2 (3/4))) _ 0 zeroV zeroV
      (by rw [embedSum_none_length]; simp),
    ln34_1, hxF00, hxF01]
  rw [show ((1 : ℝ) - 0) / 2 = 1 / 2 by norm_num, sqrt_quarter_plus]
  norm_num

theorem hlF10 : ((embedSum mC [0, 0] (List.range' 0 2) none).map
    (lnForward 2 (mkLNorm 2 (3/4)))).getD 1 zeroV 0 = -(1 / 2) := by
  rw [getD_map_of_lt (lnForward 2 (mkLNorm 2 (3/4))) _ 1 zeroV zeroV
      (by rw [embedSum_none_length]; simp),
    ln34_0, hxF10, hxF11]
  rw [show ((0 : ℝ) - 1) / 2 = -(1 / 2) by norm_num,
    show (-((1 : ℝ) / 2)) ^ 2 = (1 / 2) ^ 2 by ring, sqrt_quarter_plus]
  norm_num

theorem hlF11 : ((embedSum mC [0, 0] (List.range' 0 2) none).map
    (lnForward 2 (mkLNorm 2 (3/4)))).getD 1 zeroV 1 = 1 / 2 := by
  rw [getD_map_of_lt (lnForward 2 (mkLNorm 2 (3/4))) _ 1 zeroV zeroV
      (by rw [embedSum_none_length]; simp),
    ln34_1, hxF10, hxF11]
  rw [show ((1 : ℝ) - 0) / 2 = 1 / 2 by norm_num,
    show ((0 : ℝ) - 1) / 2 = -(1 / 2) by norm_num,
    show (-((1 : ℝ) / 2)) ^ 2 = (1 / 2) ^ 2 by ring, sqrt_quarter_plus]
  norm_num

theorem hlI00 : ((embedSum mC [0] (List.range' 0 1) none).map
    (lnForward 2 (mkLNorm 2 (3/4)))).getD 0 zeroV 0 = 1 / 2 := by
  rw [getD_map_of_lt (lnForward 2 (mkLNorm 2 (3/4))) _ 0 zeroV zeroV
      (by rw [embedSum_none_length]; simp),
    ln34_0, hxI00, hxI01]
  rw [show ((1 : ℝ) - 0) / 2 = 1 / 2 by norm_num, sqrt_quarter_plus]
  norm_num

theorem hlI01 : ((embedSum mC [0] (List.range' 0 1) none).map
    (lnForward 2 (mkLNorm 2 (3/4)))).getD 0 zeroV 1 = -(1 / 2) := by
  rw [getD_map_of_lt (lnForward 2 (mkLNorm 2 (3/4))) _ 0 zeroV zeroV
      (by rw [embedSum_none_length]; simp),
    ln34_1, hxI00, hxI01]
  rw [show ((1 : ℝ) - 0) / 2 = 1 / 2 by norm_num, sqrt_quarter_plus]
  norm_num

theorem hyF0 : (blockForwardG sourceRow cfgC blkC
    (embedSum mC [0, 0] (List.range' 0 2) none) none).1.getD 0 zeroV 0 =
    1 + ((1 / (1 + Real.exp (-1e10))) * (1 / 2) +
      (Real.exp (-1e10) / (1 + Real.exp (-1e10))) * (-(1 / 2))) := by
  rw [blockForwardG_getD sourceRow cfgC blkC (embedSum mC [0, 0] (List.range' 0 2) none)
      none 0 (by rw [embedSum_none_length]; simp),
    show lnForward cfgC.n_embd blkC.ln_1 = lnForward 2 (mkLNorm 2 (3/4)) from rfl,
    show blkC.attn = apC from rfl, show blkC.mlp = (⟨cZero, cZero⟩ : MLP) from rfl]
  simp only [vadd]
  rw [mlpC_zero, hxF00,
    attn_fullC ((embedSum mC [0, 0] (List.range' 0 2) none).map
        (lnForward 2 (mkLNorm 2 (3/4))))
      (by rw [List.length_map, embedSum_none_length]; simp) 0 (by omega),
    hlF00, hlF10]
  ring

theorem hyF1 : (blockForwardG sourceRow cfgC blkC
    (embedSum mC [0, 0] (List.range' 0 2) none) none).1.getD 0 zeroV 1 =
    (1 / (1 + Real.exp (-1e10))) * (-(1 / 2)) +
      (Real.exp (-1e10) / (1 + Real.exp (-1e10))) * (1 / 2) := by
  rw [blockForwardG_getD sourceRow cfgC blkC (embedSum mC [0, 0] (List.range' 0 2) none)
      none 0 (by rw [embedSum_none_length]; simp),
    show lnForward cfgC.n_embd blkC.ln_1 = lnForward 2 (mkLNorm 2 (3/4)) from rfl,
    show blkC.attn = apC from rfl, show blkC.mlp = (⟨cZero, cZero⟩ : MLP) from rfl]
  simp only [vadd]
  rw [mlpC_zero, hxF01,
    attn_fullC ((embedSum mC [0, 0] (List.range' 0 2) none).map
        (lnForward 2 (mkLNorm 2 (3/4))))
      (by rw [List.length_map, embedSum_none_length]; simp) 1 (by omega),
    hlF01, hlF11]
  ring

theorem hyI0 : (blockForwardG sourceRow cfgC blkC
    (embedSum mC [0] (List.range' 0 1) none) none).1.getD 0 zeroV 0 = 1 + 1 / 2 := by
  rw [blockForwardG_getD sourceRow cfgC blkC (embedSum mC [0] (List.range' 0 1) none)
      none 0 (by rw [embedSum_none_length]; simp),
    show lnForward cfgC.n_embd blkC.ln_1 = lnForward 2 (mkLNorm 2 (3/4)) from rfl,
    show blkC.attn = apC from rfl, show blkC.mlp = (⟨cZero, cZero⟩ : MLP) from rfl]
  simp only [vadd]
  rw [mlpC_zero, hxI00,
    attn_incC ((embedSum mC [0] (List.range' 0 1) none).map
        (lnForward 2 (mkLNorm 2 (3/4))))
      (by rw [List.length_map, embedSum_none_length]; simp) 0 (by omega),
    hlI00]
  ring

theorem hyI1 : (blockForwardG sourceRow cfgC blkC
    (embedSum mC [0] (List.range' 0 1) none) none).1.getD 0 zeroV 1 = -(1 / 2) := by
  rw [blockForwardG_getD sourceRow cfgC blkC (embedSum mC [0] (List.range' 0 1) none)
      none 0 (by rw [embedSum_none_length]; simp),
    show lnForward cfgC.n_embd blkC.ln_1 = lnForward 2 (mkLNorm 2 (3/4)) from rfl,
    show blkC.attn = apC from rfl, show blkC.mlp = (⟨cZero, cZero⟩ : MLP) from rfl]
  simp only [vadd]
  rw [mlpC_zero, hxI01,
    attn_incC ((embedSum mC [0] (List.range' 0 1) none).map
        (lnForward 2 (mkLNorm 2 (3/4))))
      (by rw [List.length_map, embedSum_none_length]; simp) 1 (by omega),
    hlI01]
  ring

theorem gptC_to_block (ids : List ℕ) (hlen : 0 < ids.length) :
    (gpt2ForwardG sourceRow cfgC mC ids none none none).1.getD 0 zeroV =
      lnForward 2 (mkLNorm 2 (3/4))
        ((blockForwardG sourceRow cfgC blkC
          (embedSum mC ids (List.range' 0 ids.length) none) none).1.getD 0 zeroV) := by
  rw [gpt2ForwardG_eq_none, show mC.h = [blkC] from rfl,
    show mC.ln_f = mkLNorm 2 (3/4) from rfl, show cfgC.n_embd = 2 from rfl,
    show List.replicate ([blkC] : List BlockParams).length none
      = ([none] : List (Option Cache)) from rfl,
    show (runBlocksG sourceRow cfgC [blkC] [none]
        (embedSum mC ids (List.range' 0 ids.length) none)).1
      = (blockForwardG sourceRow cfgC blkC
        (embedSum mC ids (List.range' 0 ids.length) none) none).1 from rfl]
  exact getD_map_of_lt _ _ 0 zeroV zeroV
    (by rw [blockForwardG_fst_length, embedSum_none_length]; simp [hlen])

theorem c1_full_value :
    (gpt2Forward cfgC mC [0, 0] none none none).1.getD 0 zeroV 0 =
      ((1 + (1 - Real.exp (-1e10)) / (1 + Real.exp (-1e10))) / 2) /
        Real.sqrt (((1 + (1 - Real.exp (-1e10)) / (1 + Real.exp (-1e10))) / 2) ^ 2
          + 3 / 4) := by
  show (gpt2ForwardG sourceRow cfgC mC [0, 0] none none none).1.getD 0 zeroV 0 = _
  rw [gptC_to_block [0, 0] (by simp), show ([0, 0] : List ℕ).length = 2 from rfl,
    ln34_0, hyF0, hyF1]
  have hne : (1 : ℝ) + Real.exp (-1e10) ≠ 0 := by positivity
  have harith : (1 + (1 / (1 + Real.exp (-1e10)) * (1 / 2) +
      Real.exp (-1e10) / (1 + Real.exp (-1e10)) * (-(1 / 2))) -
      (1 / (1 + Real.exp (-1e10)) * (-(1 / 2)) +
        Real.exp (-1e10) / (1 + Real.exp (-1e10)) * (1 / 2))) / 2
      = (1 + (1 - Real.exp (-1e10)) / (1 + Real.exp (-1e10))) / 2 := by
    field_simp
    ring
  rw [harith]

theorem c1_inc_value :
    (incrRunG sourceRow cfgC mC none [0, 0]).getD 0 zeroV 0 =
      1 / Real.sqrt (1 ^ 2 + 3 / 4) := by
  rw [incrRunG_cons]
  show (gpt2ForwardG sourceRow cfgC mC [0] none none none).1.getD 0 zeroV 0 = _
  rw [gptC_to_block [0] (by simp), show ([0] : List ℕ).length = 1 from rfl,
    ln34_0, hyI0, hyI1]
  rw [show (1 + 1 / 2 - -(1 / 2) : ℝ) / 2 = 1 by norm_num]

/-- C1 counterexample.  A one-layer model (one head, width 2, `n_ctx = 2`,
`layer_norm_epsilon = 3/4`) with explicit weights, token sequence `[0, 0]`,
prefix position `k = 0`: the hidden state at position 0 of the single full
run differs — already in coordinate 0 — from the hidden state produced by
the first incremental step (which is `forward([0], past=None)`).  The
full-sequence run sees one masked column in row 0, whose residual softmax
weight `exp(-1e10) / (1 + exp(-1e10))` shifts the value mixture; the
incremental run sees no masked column.  Exact consistency therefore fails
for the source's soft mask. -/
theorem c1_incremental_consistency_counterexample :
    mC.h ≠ [] ∧ (0 : ℕ) < ([0, 0] : List ℕ).length ∧
    (incrRunG sourceRow cfgC mC none [0, 0]).getD 0 zeroV 0 ≠
      (gpt2Forward cfgC mC [0, 0] none none none).1.getD 0 zeroV 0 := by
  refine ⟨by simp [mC], by simp, ?_⟩
  rw [c1_inc_value, c1_full_value]
  have hEpos : (0 : ℝ) < Real.exp (-1e10) := Real.exp_pos _
  have hElt : Real.exp (-1e10) < 1 := by
    have h := Real.exp_lt_exp.mpr (show (-1e10 : ℝ) < 0 by norm_num)
    rwa [Real.exp_zero] at h
  have hgpos : (0 : ℝ) ≤ (1 + (1 - Real.exp (-1e10)) / (1 + Real.exp (-1e10))) / 2 := by
    have h1 : (0 : ℝ) ≤ (1 - Real.exp (-1e10)) / (1 + Real.exp (-1e10)) :=
      div_nonneg (by linarith) (by positivity)
    linarith
  have hglt : (1 + (1 - Real.exp (-1e10)) / (1 + Real.exp (-1e10))) / 2 < 1 := by
    have h1 : (1 - Real.exp (-1e10)) / (1 + Real.exp (-1e10)) < 1 := by
      rw [div_lt_one (by positivity)]
      linarith
    linarith
  have hlt := sqrt_ratio_strictMono
    ((1 + (1 - Real.exp (-1e10)) / (1 + Real.exp (-1e10))) / 2) 1 hgpos hglt
  have h1d : (1 : ℝ) / Real.sqrt (1 ^ 2 + 3 / 4) = 1 / Real.sqrt ((1 : ℝ) ^ 2 + 3 / 4) :=
    rfl
  exact ne_of_gt hlt
